import Mathlib

/-!
Verification development for the GemmaHackathon backend.

Shallow embedding of the core components described by the design spec:

* the hybrid cache memory tier (src/v0/backend/cache.py, class HybridCache),
* the durable job store and task queue (src/v1/backend/database.py,
  src/v1/backend/task_queue.py, src/v1/backend/main.py),
* the per-lesson flashcard/quiz sub-pipelines
  (src/v1/backend/task_queue.py, generate_flashcards_and_quiz_for_lesson),
* the upsert-based history tables (src/v1/backend/database.py),
* the manual-parse fallback (src/v1/backend/utils/manual_parsing.py),
* the worker-count resolution (src/v1/backend/task_queue.py, module level).

Python dictionaries are modelled as association lists, datetimes as
integers, and the cooperative (asyncio) scheduling of the task queue as an
explicit small-step machine whose steps correspond to the code between two
await points.
-/

namespace Gemma

/-! ### Association lists (model of Python dict) -/

abbrev Assoc (V : Type) := List (Nat × V)

def lookupA {V : Type} : Assoc V → Nat → Option V
  | [], _ => none
  | (k', v) :: rest, k => if k' = k then some v else lookupA rest k

def containsA {V : Type} (l : Assoc V) (k : Nat) : Bool :=
  (lookupA l k).isSome

/-- Model of Python `d[k] = v`: update in place if the key exists, else append. -/
def setA {V : Type} : Assoc V → Nat → V → Assoc V
  | [], k, v => [(k, v)]
  | (k', v') :: rest, k, v =>
    if k' = k then (k, v) :: rest else (k', v') :: setA rest k v

/-- Model of Python `del d[k]` (no-op when the key is absent; in the source the
key is always present at the deletion sites, guarded by the cache invariant). -/
def eraseA {V : Type} : Assoc V → Nat → Assoc V
  | [], _ => []
  | (k', v) :: rest, k =>
    if k' = k then eraseA rest k else (k', v) :: eraseA rest k

def keysA {V : Type} : Assoc V → List Nat
  | [] => []
  | (k, _) :: rest => k :: keysA rest

/-! ### Hybrid cache, memory tier (src/v0/backend/cache.py)

Keys are the SHA-256 fingerprints produced by `_generate_key`; since the
derivation is deterministic we model the fingerprint itself as the key.
Values are generic.  Time is an integer; `ttl_hours` is a natural number
(the constructor and all call sites use the non-negative literal 24). -/

structure CacheState (V : Type) where
  cache : Assoc V
  order : List Nat
  accessTimes : Assoc Int
  maxsize : Nat
  ttlHours : Nat
deriving Repr

/-- HybridCache._is_expired: `access_times[key] < now - timedelta(hours=self.ttl_hours)`;
a key with no recorded access time counts as expired. -/
def isExpired {V : Type} (s : CacheState V) (k : Nat) (now : Int) : Bool :=
  match lookupA s.accessTimes k with
  | none => true
  | some t => decide (t < now - (s.ttlHours : Int))

/-- HybridCache._add_to_memory_cache.  When the key is absent and the order
list is at (or above) capacity the oldest entry `order[0]` is popped and
deleted from the value and access maps.  Python would raise IndexError on
`pop(0)` of an empty list, which can only happen when `maxsize = 0`; the
theorems therefore assume `0 < maxsize` (the deployed instance uses 1000). -/
def addToMemoryCache {V : Type} (s : CacheState V) (k : Nat) (v : V) (now : Int) :
    CacheState V :=
  let s1 :=
    if containsA s.cache k then
      { s with order := s.order.erase k }
    else if s.maxsize ≤ s.order.length then
      match s.order with
      | [] => s
      | oldest :: rest =>
        { s with order := rest,
                 cache := eraseA s.cache oldest,
                 accessTimes := eraseA s.accessTimes oldest }
    else s
  { s1 with cache := setA s1.cache k v,
            order := s1.order ++ [k],
            accessTimes := setA s1.accessTimes k now }

/-- HybridCache.set_cache.  The `ttl_hours` parameter of the Python method is
accepted but never read: the memory tier stores no per-entry ttl and the
fire-and-forget persistent write (`_store_in_database`) passes the instance
field `self.ttl_hours` instead. -/
def set_cache {V : Type} (s : CacheState V) (k : Nat) (v : V) (ttlHoursArg : Nat)
    (now : Int) : CacheState V :=
  addToMemoryCache s k v now

/-- The ttl that HybridCache._store_in_database forwards to the persistent
tier for a `set_cache` call: always the instance-global `self.ttl_hours`. -/
def storeInDatabaseTtl {V : Type} (s : CacheState V) (ttlHoursArg : Nat) : Nat :=
  s.ttlHours

/-- Memory-tier deletion performed on an expired hit
(`del self.cache[k]; self.order.remove(k); del self.access_times[k]`). -/
def deleteEntry {V : Type} (s : CacheState V) (k : Nat) : CacheState V :=
  { s with cache := eraseA s.cache k,
           order := s.order.erase k,
           accessTimes := eraseA s.accessTimes k }

/-- HybridCache.get_cache.  `dbResult` stands for the value, if any, that the
persistent tier returns parsed (`db.get_cache` + `json.loads`); an expired
memory hit deletes the entry and returns `None` without consulting the
persistent tier (lines 33-37 of cache.py). -/
def get_cache {V : Type} (s : CacheState V) (k : Nat) (now : Int)
    (dbResult : Option V) : CacheState V × Option V :=
  match lookupA s.cache k with
  | some v =>
    if isExpired s k now then
      (deleteEntry s k, none)
    else
      ({ s with accessTimes := setA s.accessTimes k now,
                order := s.order.erase k ++ [k] }, some v)
  | none =>
    match dbResult with
    | some v => (addToMemoryCache s k v now, some v)
    | none => (s, none)

/-- Tail of HybridCache.get_or_set after a memory miss: consult the
persistent tier, else compute, and store the outcome in the memory tier. -/
def getOrSetMiss {V : Type} (s : CacheState V) (k : Nat) (now : Int)
    (dbResult : Option V) (computed : V) : CacheState V × V :=
  match dbResult with
  | some v => (addToMemoryCache s k v now, v)
  | none => (addToMemoryCache s k computed now, computed)

/-- HybridCache.get_or_set. An expired memory hit is deleted and the call
falls through to the persistent tier / computation. -/
def get_or_set {V : Type} (s : CacheState V) (k : Nat) (now : Int)
    (dbResult : Option V) (computed : V) : CacheState V × V :=
  match lookupA s.cache k with
  | some v =>
    if isExpired s k now then
      getOrSetMiss (deleteEntry s k) k now dbResult computed
    else
      ({ s with accessTimes := setA s.accessTimes k now,
                order := s.order.erase k ++ [k] }, v)
  | none => getOrSetMiss s k now dbResult computed

/-- HybridCache.cleanup_expired: collect the expired keys of the value map,
then delete each from all three structures. -/
def cleanup_expired {V : Type} (s : CacheState V) (now : Int) : CacheState V :=
  { s with
      cache := s.cache.filter
        (fun p => !(containsA s.cache p.1 && isExpired s p.1 now)),
      order := s.order.filter
        (fun k => !(containsA s.cache k && isExpired s k now)),
      accessTimes := s.accessTimes.filter
        (fun p => !(containsA s.cache p.1 && isExpired s p.1 now)) }

/-- HybridCache.clear (memory-tier effect). -/
def clear {V : Type} (s : CacheState V) : CacheState V :=
  { s with cache := [], order := [], accessTimes := [] }

/-- Consistency of the three memory-tier structures: the value map, the LRU
order list and the access-time map hold exactly the same keys, without
duplicates, and the order list never exceeds `maxsize`. -/
structure MemInv {V : Type} (s : CacheState V) : Prop where
  orderNodup : s.order.Nodup
  cacheNodup : (keysA s.cache).Nodup
  accessNodup : (keysA s.accessTimes).Nodup
  cacheSub : ∀ k ∈ keysA s.cache, k ∈ s.order
  orderSubCache : ∀ k ∈ s.order, k ∈ keysA s.cache
  accessSub : ∀ k ∈ keysA s.accessTimes, k ∈ s.order
  orderSubAccess : ∀ k ∈ s.order, k ∈ keysA s.accessTimes
  sizeLe : s.order.length ≤ s.maxsize

/-! ### Durable job store and task queue
(src/v1/backend/database.py, src/v1/backend/task_queue.py, src/v1/backend/main.py)

Jobs are identified by their `task_id` (a uuid, modelled as a natural
number).  The `background_tasks` table keeps one row per task id (task_id is
UNIQUE) with a status column; `Database.update_task_status` performs an
unconditional UPDATE of that column.  The asyncio scheduling is modelled as
a small-step machine: each step is a code segment between two await points.
-/

inductive JStatus where
  | pending
  | processing
  | completed
  | failed
deriving DecidableEq, Repr

def JStatus.rank : JStatus → Nat
  | .pending => 0
  | .processing => 1
  | .completed => 2
  | .failed => 2

def JStatus.isTerminal : JStatus → Bool
  | .completed => true
  | .failed => true
  | _ => false

/-- Global state of the backend process plus the durable store.

* `store`: the `background_tasks` table, task_id to status.
* `queue`: the in-memory `asyncio.Queue` of the TaskQueue (task ids).
* `submitBuf`: ids for which `submit_task` has executed
  `db.create_background_task` but not yet `self._queue.put` (the code
  awaits between the two).
* `recoveryBuf`: rows returned by `db.get_pending_tasks` that
  `recover_pending_tasks` has not yet re-queued.
* `workers`: in-flight worker loop iterations, `(task_id, marked)` where
  `marked` records whether the `update_task_status(task_id, 'processing')`
  write has happened yet.
* `recovered`: whether this process run has already executed its startup
  recovery scan (`recover_pending_tasks` runs once per start).
* `history`: append-only log of every status write to the durable store,
  in program order (`create_background_task` writes `pending`). -/
structure SysState where
  store : Assoc JStatus
  queue : List Nat
  submitBuf : List Nat
  recoveryBuf : List Nat
  workers : List (Nat × Bool)
  recovered : Bool
  history : List (Nat × JStatus)
deriving DecidableEq, Repr

def initSys : SysState :=
  ⟨[], [], [], [], [], false, []⟩

/-- Events of the machine, each corresponding to one await-to-await code
segment of task_queue.py / main.py. -/
inductive Ev where
  | submitCreate (id : Nat)
  | submitPut (id : Nat)
  | recoveryScan
  | recoveryPut
  | recoveryFail
  | dequeue
  | markProcessing (id : Nat)
  | finish (id : Nat) (ok : Bool)
  | restart
deriving DecidableEq, Repr

/-- Terminal status persisted by the worker for a handler outcome. -/
def finishStatus (ok : Bool) : JStatus :=
  if ok then JStatus.completed else JStatus.failed

/-- Removal of one in-flight worker entry (first occurrence). -/
def erasePair : List (Nat × Bool) → (Nat × Bool) → List (Nat × Bool)
  | [], _ => []
  | q :: rest, p => if q = p then rest else q :: erasePair rest p

/-- Ids of the rows returned by `Database.get_pending_tasks`:
`SELECT * FROM background_tasks WHERE status IN ('pending', 'processing')`. -/
def pendingIds (store : Assoc JStatus) : List Nat :=
  keysA (store.filter (fun p => p.2 = JStatus.pending || p.2 = JStatus.processing))

/-- One scheduling step.  Returns `none` when the event is not enabled in
the given state (its guard fails).

* `submitCreate id`: TaskQueue.submit_task up to and including
  `db.create_background_task` (INSERT, status 'pending'); `id` is the fresh
  uuid so it must be absent from the store.
* `submitPut id`: the `self._queue.put` of the same submit call.
* `recoveryScan`: `recover_pending_tasks` executing `db.get_pending_tasks`
  (once per process start).
* `recoveryPut`: the loop body of `recover_pending_tasks` re-queueing the
  next recovered row.
* `recoveryFail`: the per-task exception path of the same loop, which marks
  the row 'failed' instead of re-queueing it.
* `dequeue`: a worker obtaining the next queue item (`self._queue.get`).
* `markProcessing id`: the worker executing
  `db.update_task_status(task_id, 'processing')`.
* `finish id ok`: the worker persisting the handler outcome,
  `'completed'` or `'failed'` (UPDATE with no status guard).
* `restart`: the process dies and restarts: all in-memory structures are
  lost, the durable store survives, recovery has not yet run. -/
def step (s : SysState) : Ev → Option SysState
  | .submitCreate id =>
    if lookupA s.store id = none then
      some { s with store := setA s.store id JStatus.pending,
                    submitBuf := s.submitBuf ++ [id],
                    history := s.history ++ [(id, JStatus.pending)] }
    else none
  | .submitPut id =>
    if id ∈ s.submitBuf then
      some { s with submitBuf := s.submitBuf.erase id,
                    queue := s.queue ++ [id] }
    else none
  | .recoveryScan =>
    if s.recovered = false then
      some { s with recoveryBuf := pendingIds s.store, recovered := true }
    else none
  | .recoveryPut =>
    match s.recoveryBuf with
    | [] => none
    | id :: rest =>
      some { s with recoveryBuf := rest, queue := s.queue ++ [id] }
  | .recoveryFail =>
    match s.recoveryBuf with
    | [] => none
    | id :: rest =>
      some { s with recoveryBuf := rest,
                    store := setA s.store id JStatus.failed,
                    history := s.history ++ [(id, JStatus.failed)] }
  | .dequeue =>
    match s.queue with
    | [] => none
    | id :: rest =>
      some { s with queue := rest, workers := s.workers ++ [(id, false)] }
  | .markProcessing id =>
    if (id, false) ∈ s.workers then
      some { s with workers := erasePair s.workers (id, false) ++ [(id, true)],
                    store := setA s.store id JStatus.processing,
                    history := s.history ++ [(id, JStatus.processing)] }
    else none
  | .finish id ok =>
    if (id, true) ∈ s.workers then
      some { s with workers := erasePair s.workers (id, true),
                    store := setA s.store id (finishStatus ok),
                    history := s.history ++ [(id, finishStatus ok)] }
    else none
  | .restart =>
    some { s with queue := [], submitBuf := [], recoveryBuf := [],
                  workers := [], recovered := false }

def runEvs (s : SysState) : List Ev → Option SysState
  | [] => some s
  | e :: rest =>
    match step s e with
    | some s' => runEvs s' rest
    | none => none

/-- The durable-store writes performed for one task id, in program order. -/
def writesFor (id : Nat) (h : List (Nat × JStatus)) : List JStatus :=
  (h.filter (fun p => p.1 == id)).map Prod.snd

/-- The claimed status discipline for one job id: every consecutive pair of
writes is non-decreasing in rank, and nothing at all is written after a
terminal status. -/
def chainOk : List JStatus → Bool
  | [] => true
  | [_] => true
  | a :: b :: rest => decide (a.rank ≤ b.rank) && !a.isTerminal && chainOk (b :: rest)

/-- A run is "recovery-first" when every `submitCreate` happens after the
process run's startup recovery scan (the FastAPI server only accepting
requests once `recover_pending_tasks` has read its snapshot).  The actual
code does not enforce this: recovery is spawned with
`asyncio.create_task` and the first request can race it. -/
def goodRun (s : SysState) : List Ev → Bool
  | [] => true
  | e :: rest =>
    (match e with
     | .submitCreate _ => s.recovered
     | _ => true) &&
    (match step s e with
     | some s' => goodRun s' rest
     | none => true)

/-- Live references to a task id in the in-memory structures: queue entries,
buffered submits, buffered recovery rows and worker iterations. -/
def liveCount (s : SysState) (id : Nat) : Nat :=
  s.queue.count id + s.submitBuf.count id + s.recoveryBuf.count id
    + (s.workers.map Prod.fst).count id

/-- Reachability invariant of recovery-first runs (see the theorems below). -/
structure SysInv (s : SysState) : Prop where
  storeNodup : (keysA s.store).Nodup
  histLast : ∀ id, (writesFor id s.history).getLast? = lookupA s.store id
  histOk : ∀ id, chainOk (writesFor id s.history) = true
  liveOnce : ∀ id, liveCount s id ≤ 1
  liveStatus : ∀ id, 0 < liveCount s id →
    lookupA s.store id = some JStatus.pending ∨ lookupA s.store id = some JStatus.processing
  notRecovered : s.recovered = false →
    s.queue = [] ∧ s.submitBuf = [] ∧ s.recoveryBuf = [] ∧ s.workers = []

/-! ### Upsert-based history tables (src/v1/backend/database.py)

`flashcards_history` and `quizzes_history` both carry
`UNIQUE(query_id, lesson_index)` and are written with INSERT OR REPLACE,
which deletes any conflicting row and inserts the new one. -/

structure FlashRow where
  queryId : Nat
  lessonIndex : Nat
  lessonJson : Nat
  flashcardsJson : Nat
deriving DecidableEq, Repr

structure QuizRow where
  queryId : Nat
  lessonIndex : Nat
  quizJson : Nat
deriving DecidableEq, Repr

/-- Database.save_flashcards_history: INSERT OR REPLACE keyed on
(query_id, lesson_index). -/
def save_flashcards_history (t : List FlashRow) (q li lj fj : Nat) : List FlashRow :=
  t.filter (fun r => !(r.queryId == q && r.lessonIndex == li)) ++ [⟨q, li, lj, fj⟩]

/-- Database.save_quiz_history: INSERT OR REPLACE keyed on
(query_id, lesson_index). -/
def save_quiz_history (t : List QuizRow) (q li qj : Nat) : List QuizRow :=
  t.filter (fun r => !(r.queryId == q && r.lessonIndex == li)) ++ [⟨q, li, qj⟩]

/-- Database.get_flashcards_by_query_id_and_lesson_index: fetchone on the
rows matching the key. -/
def get_flashcards_by_qid_and_idx (t : List FlashRow) (q li : Nat) : Option FlashRow :=
  t.find? (fun r => r.queryId == q && r.lessonIndex == li)

/-- Database.get_quiz_by_query_id_and_lesson_index. -/
def get_quiz_by_qid_and_idx (t : List QuizRow) (q li : Nat) : Option QuizRow :=
  t.find? (fun r => r.queryId == q && r.lessonIndex == li)

/-! ### Worker-count resolution (src/v1/backend/task_queue.py, lines 512-527) -/

/-- Module-level resolution of the worker pool size, evaluated once at
module load.  `override` is `int(os.getenv("TASK_QUEUE_WORKERS"))` when the
variable is set (and truthy), `cpuCount` is `os.cpu_count()` which may be
`None` (the code substitutes 2). -/
def resolveWorkerCount (override : Option Nat) (cpuCount : Option Nat) : Nat :=
  match override with
  | some n => n
  | none =>
    let cores := cpuCount.getD 2
    if 4 < cores then cores / 2 else min cores 4

/-! ### Manual-parse fallback (src/v1/backend/utils/manual_parsing.py)

All four fallback parsers share the same extraction prelude: if the raw
model output contains a markdown code fence tagged json, take the text
between the end of that tag and the next fence and strip it; otherwise take
the span from the first opening brace to the last closing brace.  The
result is handed to `json.loads` and mapped field by field into pydantic
models; any exception anywhere yields an empty result.

Strings are modelled as `List Char`.  `json.loads` itself is the Python
standard library, an external collaborator here: the parsers are
parameterized by a `loads : List Char → Option Json` function, and the
field-by-field mapping on the resulting document is modelled concretely. -/

/-- Python str.find: index of the first occurrence, as an option. -/
def findIdx? (pat : List Char) : List Char → Option Nat
  | [] => if pat.isPrefixOf [] then some 0 else none
  | c :: t =>
    if pat.isPrefixOf (c :: t) then some 0
    else (findIdx? pat t).map (· + 1)

/-- Python str.rfind: index of the last occurrence, as an option. -/
def rfindIdx? (pat : List Char) : List Char → Option Nat
  | [] => if pat.isPrefixOf [] then some 0 else none
  | c :: t =>
    match rfindIdx? pat t with
    | some n => some (n + 1)
    | none => if pat.isPrefixOf (c :: t) then some 0 else none

/-- Python str.find result convention: -1 when absent. -/
def pyFind (hay pat : List Char) : Int :=
  match findIdx? pat hay with
  | some n => (n : Int)
  | none => -1

/-- Python str.rfind result convention: -1 when absent. -/
def pyRFind (hay pat : List Char) : Int :=
  match rfindIdx? pat hay with
  | some n => (n : Int)
  | none => -1

/-- Python `pat in hay` for strings. -/
def containsSub (hay pat : List Char) : Bool :=
  (findIdx? pat hay).isSome

/-- Python str.find(pat, start) with a non-negative clamp on start. -/
def pyFindFrom (hay pat : List Char) (start : Int) : Int :=
  match findIdx? pat (hay.drop (max start 0).toNat) with
  | some n => ((max start 0).toNat + n : Nat)
  | none => -1

/-- Python slice index conversion: a negative index counts from the end,
and both bounds are clamped into [0, n]. -/
def pySliceIdx (n : Nat) (i : Int) : Nat :=
  (if i < 0 then max (i + n) 0 else min i (n : Int)).toNat

/-- Python slice s[a:b]. -/
def pySlice (s : List Char) (a b : Int) : List Char :=
  (s.take (pySliceIdx s.length b)).drop (pySliceIdx s.length a)

def pyIsSpace (c : Char) : Bool :=
  c == ' ' || c == '\n' || c == '\t' || c == '\r' || c == '\x0b' || c == '\x0c'

/-- Python str.strip(). -/
def pyStrip (s : List Char) : List Char :=
  ((s.dropWhile pyIsSpace).reverse.dropWhile pyIsSpace).reverse

def fenceJson : List Char := "\x60\x60\x60json".toList

def fenceStr : List Char := "\x60\x60\x60".toList

/-- The shared extraction prelude of the manual parsers (lines 9-18 of
manual_parsing.py): code-fence path or first-brace-to-last-brace path. -/
def extractJsonStr (raw : List Char) : List Char :=
  if containsSub raw fenceJson then
    pyStrip (pySlice raw (pyFind raw fenceJson + 7)
      (pyFindFrom raw fenceStr (pyFind raw fenceJson + 7)))
  else
    pySlice raw (pyFind raw ['\x7b']) (pyRFind raw ['\x7d'] + 1)

/-- Minimal JSON document model (the possible results of json.loads). -/
inductive Json where
  | null
  | bool (b : Bool)
  | num (n : Int)
  | str (s : String)
  | arr (elems : List Json)
  | obj (fields : List (String × Json))

/-- Python dict .get on a parsed JSON object. -/
def jlookup (fields : List (String × Json)) (k : String) : Option Json :=
  (fields.find? (fun p => p.1 == k)).map Prod.snd

/-- Python truthiness of a JSON value. -/
def jFalsy : Json → Bool
  | .null => true
  | .bool b => !b
  | .num n => n == 0
  | .str s => s.isEmpty
  | .arr es => es.isEmpty
  | .obj fs => fs.isEmpty

def asStr : Json → Option String
  | .str s => some s
  | _ => none

def asBool : Json → Option Bool
  | .bool b => some b
  | _ => none

def asInt : Json → Option Int
  | .num n => some n
  | _ => none

def asStrList : Json → Option (List String)
  | .arr es => es.mapM asStr
  | _ => none

/-! Pydantic models of src/v1/backend/dspy_modules.py. -/

structure Lesson where
  title : String
  overview : String
  key_concepts : List String
  examples : List String
deriving DecidableEq, Repr

structure Card where
  term : String
  explanation : String
deriving DecidableEq, Repr

structure TrueFalseQuestion where
  question : String
  correct_answer : Bool
  explanation : String
deriving DecidableEq, Repr

structure MultipleChoiceQuestion where
  question : String
  options : List String
  correct_answer : Int
  explanation : String
deriving DecidableEq, Repr

structure Quiz where
  true_false_questions : List TrueFalseQuestion
  multiple_choice_questions : List MultipleChoiceQuestion
deriving DecidableEq, Repr

/-- One iteration of the lesson-mapping loop of manual_parse_lessons:
`Lesson(title=d[...], overview=d[...], key_concepts=d[...], examples=d[...])`;
a missing key or a type rejected by pydantic raises, modelled as `none`. -/
def lessonOfJson : Json → Option Lesson
  | .obj fs => do
    let t ← jlookup fs "title" >>= asStr
    let ov ← jlookup fs "overview" >>= asStr
    let kc ← jlookup fs "key_concepts" >>= asStrList
    let ex ← jlookup fs "examples" >>= asStrList
    pure ⟨t, ov, kc, ex⟩
  | _ => none

/-- The document-to-lessons mapping of manual_parse_lessons:
`data.get('lessons', [])` followed by the construction loop. -/
def lessonsOfJson : Json → Option (List Lesson)
  | .obj fs =>
    match jlookup fs "lessons" with
    | none => some []
    | some (.arr items) => items.mapM lessonOfJson
    | some _ => none
  | _ => none

/-- manual_parse_lessons: extraction, json.loads, field mapping; every
failure is caught and becomes the empty list. -/
def manualParseLessons (loads : List Char → Option Json) (raw : List Char) :
    List Lesson :=
  match loads (extractJsonStr raw) >>= lessonsOfJson with
  | some ls => ls
  | none => []

/-- Directly parsing a lessons JSON document (no surrounding prose, no
fences) and mapping it into lessons, with the same failure convention. -/
def directParseLessons (loads : List Char → Option Json) (doc : List Char) :
    List Lesson :=
  match loads doc >>= lessonsOfJson with
  | some ls => ls
  | none => []

def cardOfJson : Json → Option Card
  | .obj fs => do
    let t ← jlookup fs "term" >>= asStr
    let e ← jlookup fs "explanation" >>= asStr
    pure ⟨t, e⟩
  | _ => none

def cardsOfJson : Json → Option (List Card)
  | .arr items => items.mapM cardOfJson
  | _ => none

/-- Document-to-cards mapping of manual_parse_flashcards:
`data.get('flashcards', {}).get('cards', [])`, falling back to
`data.get('cards', [])` when the first chain is falsy. -/
def flashcardsOfJson : Json → Option (List Card)
  | .obj fs =>
    let primary : Option Json :=
      match jlookup fs "flashcards" with
      | none => some (Json.arr [])
      | some (.obj gs) => some ((jlookup gs "cards").getD (Json.arr []))
      | some _ => none
    match primary with
    | none => none
    | some v =>
      let chosen := if jFalsy v then (jlookup fs "cards").getD (Json.arr []) else v
      cardsOfJson chosen
  | _ => none

/-- manual_parse_flashcards. -/
def manualParseFlashcards (loads : List Char → Option Json) (raw : List Char) :
    List Card :=
  match loads (extractJsonStr raw) >>= flashcardsOfJson with
  | some cs => cs
  | none => []

def tfOfJson : Json → Option TrueFalseQuestion
  | .obj fs => do
    let q ← jlookup fs "question" >>= asStr
    let a ← jlookup fs "correct_answer" >>= asBool
    let e ← jlookup fs "explanation" >>= asStr
    pure ⟨q, a, e⟩
  | _ => none

def mcOfJson : Json → Option MultipleChoiceQuestion
  | .obj fs => do
    let q ← jlookup fs "question" >>= asStr
    let o ← jlookup fs "options" >>= asStrList
    let a ← jlookup fs "correct_answer" >>= asInt
    let e ← jlookup fs "explanation" >>= asStr
    pure ⟨q, o, a, e⟩
  | _ => none

/-- Document-to-quiz mapping of manual_parse_quiz: `data.get('quiz', {})`
then the two question loops. -/
def quizOfJson : Json → Option Quiz
  | .obj fs =>
    match (jlookup fs "quiz").getD (Json.obj []) with
    | .obj qs => do
      let tfs ← (match jlookup qs "true_false_questions" with
                 | none => some []
                 | some (.arr xs) => xs.mapM tfOfJson
                 | some _ => none)
      let mcs ← (match jlookup qs "multiple_choice_questions" with
                 | none => some []
                 | some (.arr xs) => xs.mapM mcOfJson
                 | some _ => none)
      pure ⟨tfs, mcs⟩
    | _ => none
  | _ => none

/-- manual_parse_quiz (returns None rather than an empty value on failure). -/
def manualParseQuiz (loads : List Char → Option Json) (raw : List Char) :
    Option Quiz :=
  loads (extractJsonStr raw) >>= quizOfJson

/-! ### Per-lesson flashcard/quiz sub-pipelines
(src/v1/backend/task_queue.py, generate_flashcards_and_quiz_for_lesson,
lines 326-395; the manual-fallback copy at lines 423-489 is identical)

The generation client is external: each awaited `acall` is an oracle value,
either a parsed result or an error that may carry the raw model output
(`lm_response`). -/

structure GenErr where
  lmResponse : Option (List Char)
deriving DecidableEq

/-- Outcome of one awaited generation call: a parsed value, or a raised
error possibly carrying the raw model output. -/
inductive GenResult (α : Type) where
  | ok (a : α)
  | error (e : GenErr)
deriving DecidableEq

/-- The three generation calls a single lesson's sub-pipeline can make. -/
structure LessonOracle where
  fcGen : GenResult (List Card)
  quizGen : GenResult Quiz
  quizRetry : GenResult Quiz
deriving DecidableEq

inductive DbWrite where
  | fc (queryId lessonIndex : Nat) (cards : List Card)
  | quiz (queryId lessonIndex : Nat) (q : Quiz)
deriving DecidableEq, Repr

def DbWrite.lessonIndex : DbWrite → Nat
  | .fc _ i _ => i
  | .quiz _ i _ => i

/-- The `except Exception as e` block of
generate_flashcards_and_quiz_for_lesson (lines 356-392): manual flashcard
parse from the raw response, persist when non-empty, then retry quiz
generation; a successful retry is assigned but never persisted (the
save_quiz_history call sits inside the inner except), a failed retry is
manually parsed and persisted when that succeeds.  Every failure inside is
swallowed (outer `except` over the manual block). -/
def exceptBranch (loads : List Char → Option Json) (qid idx : Nat)
    (e : GenErr) (quizRetry : GenResult Quiz) : List DbWrite :=
  match e.lmResponse with
  | none => []
  | some raw =>
    match manualParseFlashcards loads raw with
    | [] => []
    | c :: cs =>
      DbWrite.fc qid idx (c :: cs) ::
        (match quizRetry with
         | .ok _ => []
         | .error qe =>
           match qe.lmResponse with
           | none => []
           | some qraw =>
             match manualParseQuiz loads qraw with
             | none => []
             | some qz => [DbWrite.quiz qid idx qz])

/-- generate_flashcards_and_quiz_for_lesson: the persisted writes of one
lesson's sub-pipeline as a function of its own generation outcomes.  The
whole body is wrapped in try/except, so no error escapes to siblings. -/
def subPipeline (loads : List Char → Option Json) (qid idx : Nat)
    (o : LessonOracle) : List DbWrite :=
  match o.fcGen with
  | .error e => exceptBranch loads qid idx e o.quizRetry
  | .ok cards =>
    DbWrite.fc qid idx cards ::
      (match o.quizGen with
       | .ok qz => [DbWrite.quiz qid idx qz]
       | .error e2 => exceptBranch loads qid idx e2 o.quizRetry)

/-- Helper for the enumerate fan-out: one sub-pipeline per lesson, indices
counting up from `idx`. -/
def runSubAux (loads : List Char → Option Json) (qid : Nat) :
    Nat → List LessonOracle → List DbWrite
  | _, [] => []
  | idx, o :: rest =>
    subPipeline loads qid idx o ++ runSubAux loads qid (idx + 1) rest

/-- The fan-out of the lessons handler success path (lines 394-395):
`tasks = [generate_flashcards_and_quiz_for_lesson(lesson, index) for index,
lesson in enumerate(lessons)]` gathered with return_exceptions=True. -/
def runSubpipelines (loads : List Char → Option Json) (qid : Nat)
    (oracles : List LessonOracle) : List DbWrite :=
  runSubAux loads qid 0 oracles

/-- The lessons job on its success path: the handler returns a success
result after spawning the fire-and-forget sub-pipelines, and the worker
records 'completed'; the sub-pipelines never touch the job row. -/
def processLessonsJob (loads : List Char → Option Json) (qid : Nat)
    (oracles : List LessonOracle) : JStatus × List DbWrite :=
  (JStatus.completed, runSubpipelines loads qid oracles)

/-- The writes of the fan-out that target one lesson index. -/
def writesForLesson (idx : Nat) (ws : List DbWrite) : List DbWrite :=
  ws.filter (fun w => w.lessonIndex == idx)

/-! ### Concrete instances used by the witnesses -/

/-- The startup race: a submit writes its job row, the recovery scan then
reads the store (seeing the new row) before the submit's queue put, and
both put the job on the queue; a single worker then processes the two
queue entries in order.  Every step is enabled in the code: recovery runs
as a fire-and-forget task while the server is already accepting
submissions. -/
def raceTrace : List Ev :=
  [Ev.submitCreate 0, Ev.recoveryScan, Ev.submitPut 0, Ev.recoveryPut,
   Ev.dequeue, Ev.markProcessing 0, Ev.finish 0 true,
   Ev.dequeue, Ev.markProcessing 0]

/-- A normal lifecycle: recovery completes before the first submission. -/
def normalTrace : List Ev :=
  [Ev.recoveryScan, Ev.submitCreate 0, Ev.submitPut 0,
   Ev.dequeue, Ev.markProcessing 0, Ev.finish 0 true]

/-- A run that leaves job 0 pending in the store and on the queue. -/
def c2Trace : List Ev :=
  [Ev.recoveryScan, Ev.submitCreate 0, Ev.submitPut 0]

def cardW : Card := ⟨"term", "explanation"⟩

def quizW : Quiz := ⟨[], []⟩

/-- Oracle of a lesson whose three generation calls all succeed. -/
def oracleOkW : LessonOracle :=
  ⟨GenResult.ok [cardW], GenResult.ok quizW, GenResult.ok quizW⟩

/-- Oracle of a lesson whose flashcard generation raises an error carrying
no raw response. -/
def oracleFailW : LessonOracle :=
  ⟨GenResult.error ⟨none⟩, GenResult.error ⟨none⟩, GenResult.error ⟨none⟩⟩

/-- Body of a small lessons JSON object (between its braces). -/
def lessonsBodyW : List Char := "\x22lessons\x22: []".toList

/-- The embedded JSON document of the witness raw string. -/
def lessonsDocW : List Char := '\x7b' :: (lessonsBodyW ++ ['\x7d'])

/-- A concrete stand-in for json.loads that recognises exactly the witness
document. -/
def loadsW : List Char → Option Json := fun s =>
  if s = lessonsDocW then some (Json.obj [("lessons", Json.arr [])]) else none

/-- The witness raw model output: prose, a fenced JSON document, prose. -/
def rawW : List Char :=
  "Here is the result:".toList ++ fenceJson ++ ['\n'] ++ lessonsDocW ++ ['\n']
    ++ fenceStr ++ "Thanks".toList

/-! ## Helper lemmas on association lists -/

theorem lookupA_setA_self {V : Type} (l : Assoc V) (k : Nat) (v : V) :
    lookupA (setA l k v) k = some v := by
  induction l with
  | nil => simp [setA, lookupA]
  | cons p rest ih =>
    obtain ⟨k', v'⟩ := p
    by_cases h : k' = k
    · simp [setA, h, lookupA]
    · simp [setA, h, lookupA, ih]

theorem lookupA_setA_ne {V : Type} (l : Assoc V) {k k' : Nat} (v : V)
    (h : k' ≠ k) : lookupA (setA l k v) k' = lookupA l k' := by
  have hkk : ¬(k = k') := fun hh => h hh.symm
  induction l with
  | nil => simp [setA, lookupA, hkk]
  | cons p rest ih =>
    obtain ⟨k0, v0⟩ := p
    by_cases h0 : k0 = k
    · subst h0
      simp [setA, lookupA, hkk]
    · simp [setA, h0, lookupA, ih]

theorem lookupA_eraseA_self {V : Type} (l : Assoc V) (k : Nat) :
    lookupA (eraseA l k) k = none := by
  induction l with
  | nil => simp [eraseA, lookupA]
  | cons p rest ih =>
    obtain ⟨k0, v0⟩ := p
    by_cases h0 : k0 = k
    · simpa [eraseA, h0] using ih
    · simpa [eraseA, h0, lookupA] using ih

theorem lookupA_eraseA_ne {V : Type} (l : Assoc V) {k k' : Nat}
    (h : k' ≠ k) : lookupA (eraseA l k) k' = lookupA l k' := by
  have hkk : ¬(k = k') := fun hh => h hh.symm
  induction l with
  | nil => simp [eraseA, lookupA]
  | cons p rest ih =>
    obtain ⟨k0, v0⟩ := p
    by_cases h0 : k0 = k
    · subst h0
      simp [eraseA, lookupA, hkk, ih]
    · simp [eraseA, h0, lookupA, ih]

theorem mem_keysA_iff_lookupA {V : Type} (l : Assoc V) (k : Nat) :
    k ∈ keysA l ↔ (lookupA l k).isSome := by
  induction l with
  | nil => simp [keysA, lookupA]
  | cons p rest ih =>
    obtain ⟨k0, v0⟩ := p
    by_cases h0 : k0 = k
    · simp [keysA, lookupA, h0]
    · simp [keysA, lookupA, h0, Ne.symm h0, ih]

theorem keysA_setA_of_mem {V : Type} (l : Assoc V) (k : Nat) (v : V)
    (h : k ∈ keysA l) : keysA (setA l k v) = keysA l := by
  induction l with
  | nil => simp [keysA] at h
  | cons p rest ih =>
    obtain ⟨k0, v0⟩ := p
    by_cases h0 : k0 = k
    · simp [setA, h0, keysA]
    · have hrest : k ∈ keysA rest := by
        rcases List.mem_cons.mp (by simpa [keysA] using h) with h1 | h1
        · exact absurd h1.symm h0
        · exact h1
      simp [setA, h0, keysA, ih hrest]

theorem keysA_setA_of_not_mem {V : Type} (l : Assoc V) (k : Nat) (v : V)
    (h : k ∉ keysA l) : keysA (setA l k v) = keysA l ++ [k] := by
  induction l with
  | nil => simp [setA, keysA]
  | cons p rest ih =>
    obtain ⟨k0, v0⟩ := p
    have h0 : k0 ≠ k := by
      intro hh
      exact h (by simp [keysA, hh])
    have hrest : k ∉ keysA rest := fun hh => h (by simp [keysA, hh])
    simp [setA, h0, keysA, ih hrest]

theorem keysA_eraseA {V : Type} (l : Assoc V) (k : Nat) :
    keysA (eraseA l k) = (keysA l).filter (fun x => x != k) := by
  induction l with
  | nil => simp [eraseA, keysA]
  | cons p rest ih =>
    obtain ⟨k0, v0⟩ := p
    by_cases h0 : k0 = k
    · simp [eraseA, keysA, h0, ih]
    · simp [eraseA, keysA, h0, ih]

theorem keysA_filter_fst {V : Type} (l : Assoc V) (pr : Nat × V → Bool)
    (q : Nat → Bool) (hpr : ∀ a b, pr (a, b) = q a) :
    keysA (l.filter pr) = (keysA l).filter q := by
  induction l with
  | nil => simp [keysA]
  | cons p rest ih =>
    obtain ⟨k0, v0⟩ := p
    by_cases h0 : q k0
    · simp [keysA, h0, hpr, List.filter_cons, ih]
    · simp [keysA, h0, hpr, List.filter_cons, ih]

theorem nodup_append_singleton {α : Type _} {l : List α} {a : α}
    (h : l.Nodup) (ha : a ∉ l) : (l ++ [a]).Nodup := by
  simp [List.nodup_append, h, ha]

theorem find?_filter_not {α : Type _} (l : List α) (p : α → Bool) :
    (l.filter (fun a => !p a)).find? p = none := by
  induction l with
  | nil => simp
  | cons a t ih =>
    by_cases h : p a
    · simp [List.filter_cons, h, ih]
    · simp [List.filter_cons, h, List.find?_cons, ih]

/-! ## Claim C4: upsert idempotence of the per-lesson history tables -/

theorem countP_filter_not_eq_zero {α : Type _} (l : List α) (p : α → Bool) :
    (l.filter (fun a => !p a)).countP p = 0 := by
  rw [List.countP_eq_zero]
  intro a ha
  simpa using List.of_mem_filter ha

theorem countP_save_flashcards (t : List FlashRow) (q li lj fj : Nat) :
    (save_flashcards_history t q li lj fj).countP
        (fun r => r.queryId == q && r.lessonIndex == li) = 1 := by
  unfold save_flashcards_history
  rw [List.countP_append, countP_filter_not_eq_zero]
  simp [List.countP_cons]

theorem countP_save_quiz (t : List QuizRow) (q li qj : Nat) :
    (save_quiz_history t q li qj).countP
        (fun r => r.queryId == q && r.lessonIndex == li) = 1 := by
  unfold save_quiz_history
  rw [List.countP_append, countP_filter_not_eq_zero]
  simp [List.countP_cons]

theorem find_after_save_flashcards (t : List FlashRow) (q li lj fj : Nat) :
    get_flashcards_by_qid_and_idx (save_flashcards_history t q li lj fj) q li
      = some ⟨q, li, lj, fj⟩ := by
  unfold get_flashcards_by_qid_and_idx save_flashcards_history
  rw [List.find?_append, find?_filter_not]
  simp [List.find?_cons]

/-- C4: writing the same (query_id, lesson_index) key twice with different
content leaves exactly one row for that key in each of the two history
tables (INSERT OR REPLACE on the UNIQUE key), and a read after the second
write returns the second write's content. -/
theorem upsert_last_write_wins :
    ∀ (tf : List FlashRow) (tq : List QuizRow) (q li lj₁ fj₁ lj₂ fj₂ qj₁ qj₂ : Nat),
      let tf₂ := save_flashcards_history (save_flashcards_history tf q li lj₁ fj₁) q li lj₂ fj₂
      let tq₂ := save_quiz_history (save_quiz_history tq q li qj₁) q li qj₂
      tf₂.countP (fun r => r.queryId == q && r.lessonIndex == li) = 1 ∧
      get_flashcards_by_qid_and_idx tf₂ q li = some ⟨q, li, lj₂, fj₂⟩ ∧
      tq₂.countP (fun r => r.queryId == q && r.lessonIndex == li) = 1 ∧
      get_quiz_by_qid_and_idx tq₂ q li = some ⟨q, li, qj₂⟩ := by
  intro tf tq q li lj₁ fj₁ lj₂ fj₂ qj₁ qj₂
  refine ⟨countP_save_flashcards _ q li lj₂ fj₂,
          find_after_save_flashcards _ q li lj₂ fj₂,
          countP_save_quiz _ q li qj₂, ?_⟩
  unfold get_quiz_by_qid_and_idx save_quiz_history
  rw [List.find?_append, find?_filter_not]
  simp [List.find?_cons]

/-! ## Shape lemmas for the memory-tier insertion -/

theorem addToMemoryCache_eq_update {V : Type} (s : CacheState V) (k : Nat) (v : V)
    (now : Int) (hk : containsA s.cache k = true) :
    addToMemoryCache s k v now =
      { s with cache := setA s.cache k v,
               order := s.order.erase k ++ [k],
               accessTimes := setA s.accessTimes k now } := by
  unfold addToMemoryCache
  simp [hk]

theorem addToMemoryCache_eq_evict {V : Type} (s : CacheState V) (k : Nat) (v : V)
    (now : Int) (oldest : Nat) (rest : List Nat)
    (hk : containsA s.cache k = false) (hcap : s.maxsize ≤ s.order.length)
    (horder : s.order = oldest :: rest) :
    addToMemoryCache s k v now =
      { s with cache := setA (eraseA s.cache oldest) k v,
               order := rest ++ [k],
               accessTimes := setA (eraseA s.accessTimes oldest) k now } := by
  unfold addToMemoryCache
  rw [horder] at hcap ⊢
  simp only [List.length_cons] at hcap
  simp [hk, hcap]

theorem addToMemoryCache_eq_append {V : Type} (s : CacheState V) (k : Nat) (v : V)
    (now : Int) (hk : containsA s.cache k = false)
    (hcap : s.order.length < s.maxsize) :
    addToMemoryCache s k v now =
      { s with cache := setA s.cache k v,
               order := s.order ++ [k],
               accessTimes := setA s.accessTimes k now } := by
  unfold addToMemoryCache
  simp [hk, Nat.not_le.mpr hcap]

theorem lookup_cache_addToMemoryCache {V : Type} (s : CacheState V) (k : Nat)
    (v : V) (now : Int) (hmax : 0 < s.maxsize) :
    lookupA (addToMemoryCache s k v now).cache k = some v := by
  by_cases hk : containsA s.cache k = true
  · rw [addToMemoryCache_eq_update s k v now hk]
    exact lookupA_setA_self _ k v
  · replace hk : containsA s.cache k = false := by
      simpa using hk
    by_cases hcap : s.maxsize ≤ s.order.length
    · have hne : s.order ≠ [] := by
        intro h0
        rw [h0] at hcap
        simp at hcap
        omega
      obtain ⟨oldest, rest, horder⟩ := List.exists_cons_of_ne_nil hne
      rw [addToMemoryCache_eq_evict s k v now oldest rest hk hcap horder]
      exact lookupA_setA_self _ k v
    · rw [addToMemoryCache_eq_append s k v now hk (Nat.not_le.mp hcap)]
      exact lookupA_setA_self _ k v

theorem lookup_access_addToMemoryCache {V : Type} (s : CacheState V) (k : Nat)
    (v : V) (now : Int) (hmax : 0 < s.maxsize) :
    lookupA (addToMemoryCache s k v now).accessTimes k = some now := by
  by_cases hk : containsA s.cache k = true
  · rw [addToMemoryCache_eq_update s k v now hk]
    exact lookupA_setA_self _ k now
  · replace hk : containsA s.cache k = false := by
      simpa using hk
    by_cases hcap : s.maxsize ≤ s.order.length
    · have hne : s.order ≠ [] := by
        intro h0
        rw [h0] at hcap
        simp at hcap
        omega
      obtain ⟨oldest, rest, horder⟩ := List.exists_cons_of_ne_nil hne
      rw [addToMemoryCache_eq_evict s k v now oldest rest hk hcap horder]
      exact lookupA_setA_self _ k now
    · rw [addToMemoryCache_eq_append s k v now hk (Nat.not_le.mp hcap)]
      exact lookupA_setA_self _ k now

theorem maxsize_addToMemoryCache {V : Type} (s : CacheState V) (k : Nat)
    (v : V) (now : Int) : (addToMemoryCache s k v now).maxsize = s.maxsize := by
  unfold addToMemoryCache
  by_cases hk : containsA s.cache k = true
  · simp [hk]
  · replace hk : containsA s.cache k = false := by simpa using hk
    by_cases hcap : s.maxsize ≤ s.order.length
    · cases horder : s.order with
      | nil => simp [hk, horder]
      | cons oldest rest =>
        rw [horder] at hcap
        simp only [List.length_cons] at hcap
        simp [hk, hcap, horder]
    · simp [hk, hcap]

theorem ttl_addToMemoryCache {V : Type} (s : CacheState V) (k : Nat)
    (v : V) (now : Int) : (addToMemoryCache s k v now).ttlHours = s.ttlHours := by
  unfold addToMemoryCache
  by_cases hk : containsA s.cache k = true
  · simp [hk]
  · replace hk : containsA s.cache k = false := by simpa using hk
    by_cases hcap : s.maxsize ≤ s.order.length
    · cases horder : s.order with
      | nil => simp [hk, horder]
      | cons oldest rest =>
        rw [horder] at hcap
        simp only [List.length_cons] at hcap
        simp [hk, hcap, horder]
    · simp [hk, hcap]

/-! ## Claim C5: store followed by an immediate lookup returns the value -/

/-- C5: for every key and value, `set_cache` followed immediately (same
time instant) by `get_cache` on the same key returns the stored value.  The
claim's escape clause (the key being the evicted LRU entry) never fires:
eviction only happens when the stored key is absent from the memory tier,
so the evicted entry is always a different key.  `0 < maxsize` scopes the
statement to states where Python's `order.pop(0)` cannot raise (the
deployed instance uses maxsize 1000). -/
theorem store_then_lookup {V : Type} (s : CacheState V) (k : Nat) (v : V)
    (ttlArg : Nat) (now : Int) (dbr : Option V) (hmax : 0 < s.maxsize) :
    (get_cache (set_cache s k v ttlArg now) k now dbr).2 = some v := by
  unfold set_cache
  have hc := lookup_cache_addToMemoryCache s k v now hmax
  have ha := lookup_access_addToMemoryCache s k v now hmax
  have hexp : isExpired (addToMemoryCache s k v now) k now = false := by
    unfold isExpired
    rw [ha]
    rw [ttl_addToMemoryCache]
    simp
  unfold get_cache
  rw [hc]
  simp [hexp]

/-- C5 witness at a concrete state. -/
theorem store_then_lookup_witness :
    (get_cache (set_cache (⟨[(1, 10)], [1], [(1, 0)], 2, 24⟩ : CacheState Nat)
        2 7 5 3) 2 3 none).2 = some 7 :=
  store_then_lookup ⟨[(1, 10)], [1], [(1, 0)], 2, 24⟩ 2 7 5 3 none (by decide)

/-! ## Claim C6: expiry policy and the scope of the ttl -/

/-- C6 counterexample: `set_cache` is called with a per-entry ttl of 100
hours on a cache whose instance-global `ttl_hours` is 24; at 50 hours after
the write the entry is already expired (50 - 0 > 24) even though the
claimed entry-scoped policy (expired only when now - last_accessed > 100)
would keep it: the ttl argument of the store call does not determine
expiry. -/
theorem ttl_not_entry_scoped :
    isExpired (set_cache (⟨[], [], [], 10, 24⟩ : CacheState Nat) 1 5 100 0) 1 50
        = true ∧
      ¬((100 : Int) < 50 - 0) := by
  constructor
  · decide
  · decide

/-- C6 amended: an entry is expired exactly when now - last_accessed_at
exceeds the ttl, but the ttl is the cache instance's global `ttl_hours`,
not an entry-scoped one: the `ttl_hours` argument of `set_cache` is ignored
both by the memory tier and by the forwarded persistent-tier write. -/
theorem expiry_uses_global_ttl {V : Type} :
    (∀ (s : CacheState V) (k : Nat) (now t : Int),
        lookupA s.accessTimes k = some t →
          (isExpired s k now = true ↔ (s.ttlHours : Int) < now - t)) ∧
    (∀ (s : CacheState V) (k : Nat) (v : V) (t₁ t₂ : Nat) (now : Int),
        set_cache s k v t₁ now = set_cache s k v t₂ now) ∧
    (∀ (s : CacheState V) (t₁ t₂ : Nat),
        storeInDatabaseTtl s t₁ = storeInDatabaseTtl s t₂) := by
  refine ⟨?_, ?_, ?_⟩
  · intro s k now t h
    unfold isExpired
    rw [h]
    simp
    omega
  · intro s k v t₁ t₂ now
    rfl
  · intro s t₁ t₂
    rfl

/-- C6 witness: the expiry criterion applied at a concrete state. -/
theorem expiry_uses_global_ttl_witness :
    isExpired (⟨[(1, 99)], [1], [(1, 0)], 10, 24⟩ : CacheState Nat) 1 50 = true :=
  ((expiry_uses_global_ttl (V := Nat)).1 ⟨[(1, 99)], [1], [(1, 0)], 10, 24⟩ 1 50 0
      (by decide)).mpr (by decide)

/-! ## Claim C9: worker-count resolution -/

/-- C9 counterexample: with no environment override and 2 detected CPU
cores, the code resolves 2 workers (`min cpu_cores 4` on the not-more-
than-4-cores branch), not the claimed half-of-parallelism-with-minimum-1,
which would give 1. -/
theorem worker_count_not_half_min_one :
    resolveWorkerCount none (some 2) = 2 ∧ max 1 (2 / 2) = 1 ∧ (2 : Nat) ≠ 1 := by
  refine ⟨rfl, rfl, by decide⟩

/-- C9 amended: the worker count is resolved once at module import: an
environment override is used verbatim; otherwise, with c the detected CPU
count (2 when undetectable), the default is c / 2 when c > 4 and c itself
(already at most 4) when c ≤ 4 — at least 1 whenever c ≥ 1, but not half of
the parallelism in the c ≤ 4 range. -/
theorem worker_count_resolution :
    (∀ (n : Nat) (cpu : Option Nat), resolveWorkerCount (some n) cpu = n) ∧
    (∀ c : Nat, 4 < c → resolveWorkerCount none (some c) = c / 2) ∧
    (∀ c : Nat, c ≤ 4 → resolveWorkerCount none (some c) = c) ∧
    resolveWorkerCount none none = 2 ∧
    (∀ c : Nat, 1 ≤ c → 1 ≤ resolveWorkerCount none (some c)) := by
  refine ⟨fun n cpu => rfl, ?_, ?_, rfl, ?_⟩
  · intro c h
    simp [resolveWorkerCount, h]
  · intro c h
    simp [resolveWorkerCount, Nat.not_lt.mpr h]
    omega
  · intro c h
    by_cases h4 : 4 < c
    · simp [resolveWorkerCount, h4]
      omega
    · simp [resolveWorkerCount, h4]
      omega

/-- C9 witness: the resolution rules applied at concrete inputs. -/
theorem worker_count_resolution_witness :
    resolveWorkerCount (some 3) (some 8) = 3 ∧
      resolveWorkerCount none (some 8) = 4 ∧
      resolveWorkerCount none (some 2) = 2 ∧
      1 ≤ resolveWorkerCount none (some 1) :=
  ⟨worker_count_resolution.1 3 (some 8),
   worker_count_resolution.2.1 8 (by decide),
   worker_count_resolution.2.2.1 2 (by decide),
   worker_count_resolution.2.2.2.2 1 (by decide)⟩

/-! ## Key-set lemmas for the invariant proofs -/

theorem mem_keysA_eraseA {V : Type} (l : Assoc V) (k x : Nat) :
    x ∈ keysA (eraseA l k) ↔ x ∈ keysA l ∧ x ≠ k := by
  rw [keysA_eraseA]
  simp [List.mem_filter]

theorem nodup_keysA_setA {V : Type} (l : Assoc V) (k : Nat) (v : V)
    (h : (keysA l).Nodup) : (keysA (setA l k v)).Nodup := by
  by_cases hm : k ∈ keysA l
  · rw [keysA_setA_of_mem _ _ _ hm]
    exact h
  · rw [keysA_setA_of_not_mem _ _ _ hm]
    exact nodup_append_singleton h hm

theorem nodup_keysA_eraseA {V : Type} (l : Assoc V) (k : Nat)
    (h : (keysA l).Nodup) : (keysA (eraseA l k)).Nodup := by
  rw [keysA_eraseA]
  exact h.filter _

theorem not_mem_keysA_of_contains_false {V : Type} (l : Assoc V) (k : Nat)
    (h : containsA l k = false) : k ∉ keysA l := by
  rw [mem_keysA_iff_lookupA]
  simp [containsA] at h
  simp [h]

theorem mem_keysA_of_contains_true {V : Type} (l : Assoc V) (k : Nat)
    (h : containsA l k = true) : k ∈ keysA l := by
  rw [mem_keysA_iff_lookupA]
  simpa [containsA] using h

/-! ## Invariant preservation for the memory tier -/

theorem memInv_addToMemoryCache {V : Type} (s : CacheState V) (k : Nat) (v : V)
    (now : Int) (inv : MemInv s) (hmax : 0 < s.maxsize) :
    MemInv (addToMemoryCache s k v now) := by
  by_cases hk : containsA s.cache k = true
  · -- key already present: order moves to most-recent, maps update in place
    have hkmem : k ∈ keysA s.cache := mem_keysA_of_contains_true _ _ hk
    have hkord : k ∈ s.order := inv.cacheSub k hkmem
    have hkacc : k ∈ keysA s.accessTimes := inv.orderSubAccess k hkord
    have hpos : 0 < s.order.length := List.length_pos.mpr (List.ne_nil_of_mem hkord)
    rw [addToMemoryCache_eq_update s k v now hk]
    refine ⟨?_, ?_, ?_, ?_, ?_, ?_, ?_, ?_⟩
    · exact nodup_append_singleton (List.Nodup.erase k inv.orderNodup)
        (fun hmem => ((inv.orderNodup.mem_erase_iff).mp hmem).1 rfl)
    · rw [keysA_setA_of_mem _ _ _ hkmem]
      exact inv.cacheNodup
    · rw [keysA_setA_of_mem _ _ _ hkacc]
      exact inv.accessNodup
    · intro x hx
      rw [keysA_setA_of_mem _ _ _ hkmem] at hx
      by_cases hxk : x = k
      · subst hxk
        exact List.mem_append_right _ (List.mem_singleton.mpr rfl)
      · exact List.mem_append_left _ ((List.mem_erase_of_ne hxk).mpr (inv.cacheSub x hx))
    · intro x hx
      rw [keysA_setA_of_mem _ _ _ hkmem]
      rcases List.mem_append.mp hx with h1 | h1
      · exact inv.orderSubCache x (List.mem_of_mem_erase h1)
      · rw [List.mem_singleton.mp h1]
        exact hkmem
    · intro x hx
      rw [keysA_setA_of_mem _ _ _ hkacc] at hx
      by_cases hxk : x = k
      · subst hxk
        exact List.mem_append_right _ (List.mem_singleton.mpr rfl)
      · exact List.mem_append_left _ ((List.mem_erase_of_ne hxk).mpr (inv.accessSub x hx))
    · intro x hx
      rw [keysA_setA_of_mem _ _ _ hkacc]
      rcases List.mem_append.mp hx with h1 | h1
      · exact inv.orderSubAccess x (List.mem_of_mem_erase h1)
      · rw [List.mem_singleton.mp h1]
        exact hkacc
    · have hle := inv.sizeLe
      rw [List.length_append, List.length_erase_of_mem hkord]
      simp
      omega
  · replace hk : containsA s.cache k = false := by
      simpa using hk
    have hkmem : k ∉ keysA s.cache := not_mem_keysA_of_contains_false _ _ hk
    have hkord : k ∉ s.order := fun h => hkmem (inv.orderSubCache k h)
    have hkacc : k ∉ keysA s.accessTimes := fun h => hkord (inv.accessSub k h)
    by_cases hcap : s.maxsize ≤ s.order.length
    · -- at capacity: the single oldest entry is evicted
      have hne : s.order ≠ [] := by
        intro h0
        rw [h0] at hcap
        simp at hcap
        omega
      obtain ⟨oldest, rest, horder⟩ := List.exists_cons_of_ne_nil hne
      have holdmem : oldest ∈ s.order := by
        rw [horder]
        exact List.mem_cons_self _ _
      have holdcache : oldest ∈ keysA s.cache := inv.orderSubCache _ holdmem
      have holdacc : oldest ∈ keysA s.accessTimes := inv.orderSubAccess _ holdmem
      have hnodup := inv.orderNodup
      rw [horder] at hnodup
      have holdrest : oldest ∉ rest := (List.nodup_cons.mp hnodup).1
      have hrestnodup : rest.Nodup := (List.nodup_cons.mp hnodup).2
      have hkrest : k ∉ rest := fun h => hkord (by
        rw [horder]
        exact List.mem_cons_of_mem _ h)
      have hkc : k ∉ keysA (eraseA s.cache oldest) :=
        fun h => hkmem ((mem_keysA_eraseA _ _ _).mp h).1
      have hka : k ∉ keysA (eraseA s.accessTimes oldest) :=
        fun h => hkacc ((mem_keysA_eraseA _ _ _).mp h).1
      rw [addToMemoryCache_eq_evict s k v now oldest rest hk hcap horder]
      refine ⟨?_, ?_, ?_, ?_, ?_, ?_, ?_, ?_⟩
      · exact nodup_append_singleton hrestnodup hkrest
      · rw [keysA_setA_of_not_mem _ _ _ hkc]
        exact nodup_append_singleton (nodup_keysA_eraseA _ _ inv.cacheNodup) hkc
      · rw [keysA_setA_of_not_mem _ _ _ hka]
        exact nodup_append_singleton (nodup_keysA_eraseA _ _ inv.accessNodup) hka
      · intro x hx
        rw [keysA_setA_of_not_mem _ _ _ hkc] at hx
        rcases List.mem_append.mp hx with h1 | h1
        · obtain ⟨hxc, hxo⟩ := (mem_keysA_eraseA _ _ _).mp h1
          have : x ∈ s.order := inv.cacheSub x hxc
          rw [horder] at this
          rcases List.mem_cons.mp this with h2 | h2
          · exact absurd h2 hxo
          · exact List.mem_append_left _ h2
        · exact List.mem_append_right _ h1
      · intro x hx
        rw [keysA_setA_of_not_mem _ _ _ hkc]
        rcases List.mem_append.mp hx with h1 | h1
        · have hxo : x ∈ s.order := by
            rw [horder]
            exact List.mem_cons_of_mem _ h1
          have hxold : x ≠ oldest := fun h => holdrest (h ▸ h1)
          exact List.mem_append_left _
            ((mem_keysA_eraseA _ _ _).mpr ⟨inv.orderSubCache x hxo, hxold⟩)
        · exact List.mem_append_right _ h1
      · intro x hx
        rw [keysA_setA_of_not_mem _ _ _ hka] at hx
        rcases List.mem_append.mp hx with h1 | h1
        · obtain ⟨hxc, hxo⟩ := (mem_keysA_eraseA _ _ _).mp h1
          have : x ∈ s.order := inv.accessSub x hxc
          rw [horder] at this
          rcases List.mem_cons.mp this with h2 | h2
          · exact absurd h2 hxo
          · exact List.mem_append_left _ h2
        · exact List.mem_append_right _ h1
      · intro x hx
        rw [keysA_setA_of_not_mem _ _ _ hka]
        rcases List.mem_append.mp hx with h1 | h1
        · have hxo : x ∈ s.order := by
            rw [horder]
            exact List.mem_cons_of_mem _ h1
          have hxold : x ≠ oldest := fun h => holdrest (h ▸ h1)
          exact List.mem_append_left _
            ((mem_keysA_eraseA _ _ _).mpr ⟨inv.orderSubAccess x hxo, hxold⟩)
        · exact List.mem_append_right _ h1
      · have hlen : s.order.length = rest.length + 1 := by
          rw [horder]
          simp
        have hle := inv.sizeLe
        simp
        omega
    · -- below capacity: plain append
      have hlt : s.order.length < s.maxsize := Nat.not_le.mp hcap
      rw [addToMemoryCache_eq_append s k v now hk hlt]
      refine ⟨?_, ?_, ?_, ?_, ?_, ?_, ?_, ?_⟩
      · exact nodup_append_singleton inv.orderNodup hkord
      · rw [keysA_setA_of_not_mem _ _ _ hkmem]
        exact nodup_append_singleton inv.cacheNodup hkmem
      · rw [keysA_setA_of_not_mem _ _ _ hkacc]
        exact nodup_append_singleton inv.accessNodup hkacc
      · intro x hx
        rw [keysA_setA_of_not_mem _ _ _ hkmem] at hx
        rcases List.mem_append.mp hx with h1 | h1
        · exact List.mem_append_left _ (inv.cacheSub x h1)
        · exact List.mem_append_right _ h1
      · intro x hx
        rw [keysA_setA_of_not_mem _ _ _ hkmem]
        rcases List.mem_append.mp hx with h1 | h1
        · exact List.mem_append_left _ (inv.orderSubCache x h1)
        · exact List.mem_append_right _ h1
      · intro x hx
        rw [keysA_setA_of_not_mem _ _ _ hkacc] at hx
        rcases List.mem_append.mp hx with h1 | h1
        · exact List.mem_append_left _ (inv.accessSub x h1)
        · exact List.mem_append_right _ h1
      · intro x hx
        rw [keysA_setA_of_not_mem _ _ _ hkacc]
        rcases List.mem_append.mp hx with h1 | h1
        · exact List.mem_append_left _ (inv.orderSubAccess x h1)
        · exact List.mem_append_right _ h1
      · simp
        omega

theorem memInv_deleteEntry {V : Type} (s : CacheState V) (k : Nat)
    (inv : MemInv s) : MemInv (deleteEntry s k) := by
  unfold deleteEntry
  refine ⟨?_, ?_, ?_, ?_, ?_, ?_, ?_, ?_⟩
  · exact List.Nodup.erase k inv.orderNodup
  · exact nodup_keysA_eraseA _ _ inv.cacheNodup
  · exact nodup_keysA_eraseA _ _ inv.accessNodup
  · intro x hx
    obtain ⟨hxc, hxk⟩ := (mem_keysA_eraseA _ _ _).mp hx
    exact (List.mem_erase_of_ne hxk).mpr (inv.cacheSub x hxc)
  · intro x hx
    obtain ⟨hxk, hxo⟩ := (inv.orderNodup.mem_erase_iff).mp hx
    exact (mem_keysA_eraseA _ _ _).mpr ⟨inv.orderSubCache x hxo, hxk⟩
  · intro x hx
    obtain ⟨hxc, hxk⟩ := (mem_keysA_eraseA _ _ _).mp hx
    exact (List.mem_erase_of_ne hxk).mpr (inv.accessSub x hxc)
  · intro x hx
    obtain ⟨hxk, hxo⟩ := (inv.orderNodup.mem_erase_iff).mp hx
    exact (mem_keysA_eraseA _ _ _).mpr ⟨inv.orderSubAccess x hxo, hxk⟩
  · exact Nat.le_trans (List.Sublist.length_le (List.erase_sublist _ _)) inv.sizeLe

theorem memInv_touch {V : Type} (s : CacheState V) (k : Nat) (now : Int)
    (inv : MemInv s) (hkord : k ∈ s.order) :
    MemInv { s with accessTimes := setA s.accessTimes k now,
                    order := s.order.erase k ++ [k] } := by
  have hkacc : k ∈ keysA s.accessTimes := inv.orderSubAccess k hkord
  have hpos : 0 < s.order.length := List.length_pos.mpr (List.ne_nil_of_mem hkord)
  refine ⟨?_, ?_, ?_, ?_, ?_, ?_, ?_, ?_⟩
  · exact nodup_append_singleton (List.Nodup.erase k inv.orderNodup)
      (fun hmem => ((inv.orderNodup.mem_erase_iff).mp hmem).1 rfl)
  · exact inv.cacheNodup
  · rw [keysA_setA_of_mem _ _ _ hkacc]
    exact inv.accessNodup
  · intro x hx
    by_cases hxk : x = k
    · subst hxk
      exact List.mem_append_right _ (List.mem_singleton.mpr rfl)
    · exact List.mem_append_left _ ((List.mem_erase_of_ne hxk).mpr (inv.cacheSub x hx))
  · intro x hx
    rcases List.mem_append.mp hx with h1 | h1
    · exact inv.orderSubCache x (List.mem_of_mem_erase h1)
    · rw [List.mem_singleton.mp h1]
      exact inv.orderSubCache k hkord
  · intro x hx
    rw [keysA_setA_of_mem _ _ _ hkacc] at hx
    by_cases hxk : x = k
    · subst hxk
      exact List.mem_append_right _ (List.mem_singleton.mpr rfl)
    · exact List.mem_append_left _ ((List.mem_erase_of_ne hxk).mpr (inv.accessSub x hx))
  · intro x hx
    rw [keysA_setA_of_mem _ _ _ hkacc]
    rcases List.mem_append.mp hx with h1 | h1
    · exact inv.orderSubAccess x (List.mem_of_mem_erase h1)
    · rw [List.mem_singleton.mp h1]
      exact hkacc
  · have hle := inv.sizeLe
    rw [List.length_append, List.length_erase_of_mem hkord]
    simp
    omega

theorem memInv_cleanup_expired {V : Type} (s : CacheState V) (now : Int)
    (inv : MemInv s) : MemInv (cleanup_expired s now) := by
  unfold cleanup_expired
  have hkc := keysA_filter_fst s.cache
    (fun p => !(containsA s.cache p.1 && isExpired s p.1 now))
    (fun x => !(containsA s.cache x && isExpired s x now)) (fun a b => rfl)
  have hka := keysA_filter_fst s.accessTimes
    (fun p => !(containsA s.cache p.1 && isExpired s p.1 now))
    (fun x => !(containsA s.cache x && isExpired s x now)) (fun a b => rfl)
  refine ⟨?_, ?_, ?_, ?_, ?_, ?_, ?_, ?_⟩
  · exact inv.orderNodup.filter _
  · rw [hkc]
    exact inv.cacheNodup.filter _
  · rw [hka]
    exact inv.accessNodup.filter _
  · intro x hx
    rw [hkc] at hx
    obtain ⟨hxc, hp⟩ := List.mem_filter.mp hx
    exact List.mem_filter.mpr ⟨inv.cacheSub x hxc, hp⟩
  · intro x hx
    obtain ⟨hxo, hp⟩ := List.mem_filter.mp hx
    rw [hkc]
    exact List.mem_filter.mpr ⟨inv.orderSubCache x hxo, hp⟩
  · intro x hx
    rw [hka] at hx
    obtain ⟨hxc, hp⟩ := List.mem_filter.mp hx
    exact List.mem_filter.mpr ⟨inv.accessSub x hxc, hp⟩
  · intro x hx
    obtain ⟨hxo, hp⟩ := List.mem_filter.mp hx
    rw [hka]
    exact List.mem_filter.mpr ⟨inv.orderSubAccess x hxo, hp⟩
  · exact Nat.le_trans (List.length_filter_le _ _) inv.sizeLe

theorem memInv_clear {V : Type} (s : CacheState V) (inv : MemInv s) :
    MemInv (clear s) := by
  unfold clear
  refine ⟨List.nodup_nil, List.nodup_nil, List.nodup_nil, ?_, ?_, ?_, ?_, ?_⟩
  · intro x hx
    simp [keysA] at hx
  · intro x hx
    simp at hx
  · intro x hx
    simp [keysA] at hx
  · intro x hx
    simp at hx
  · simp

theorem memInv_get_cache {V : Type} (s : CacheState V) (k : Nat) (now : Int)
    (dbr : Option V) (inv : MemInv s) (hmax : 0 < s.maxsize) :
    MemInv (get_cache s k now dbr).1 := by
  unfold get_cache
  cases hl : lookupA s.cache k with
  | none =>
    cases dbr with
    | none => exact inv
    | some v => exact memInv_addToMemoryCache s k v now inv hmax
  | some v =>
    by_cases hexp : isExpired s k now = true
    · simp only [hexp, if_true]
      exact memInv_deleteEntry s k inv
    · replace hexp : isExpired s k now = false := by
        simpa using hexp
      simp only [hexp]
      simp
      exact memInv_touch s k now inv
        (inv.cacheSub k ((mem_keysA_iff_lookupA _ _).mpr (by simp [hl])))

theorem memInv_get_or_set {V : Type} (s : CacheState V) (k : Nat) (now : Int)
    (dbr : Option V) (c : V) (inv : MemInv s) (hmax : 0 < s.maxsize) :
    MemInv (get_or_set s k now dbr c).1 := by
  have hmiss : ∀ (t : CacheState V), MemInv t → 0 < t.maxsize →
      MemInv (getOrSetMiss t k now dbr c).1 := by
    intro t ht hm
    unfold getOrSetMiss
    cases dbr with
    | none => exact memInv_addToMemoryCache t k c now ht hm
    | some v => exact memInv_addToMemoryCache t k v now ht hm
  unfold get_or_set
  cases hl : lookupA s.cache k with
  | none => exact hmiss s inv hmax
  | some v =>
    by_cases hexp : isExpired s k now = true
    · simp only [hexp, if_true]
      exact hmiss (deleteEntry s k) (memInv_deleteEntry s k inv) hmax
    · replace hexp : isExpired s k now = false := by
        simpa using hexp
      simp only [hexp]
      simp
      exact memInv_touch s k now inv
        (inv.cacheSub k ((mem_keysA_iff_lookupA _ _).mpr (by simp [hl])))

/-! ## Claims C7 and C10: LRU discipline and memory-tier invariant -/

/-- C7: inserting a fresh key while the order list is at capacity evicts
exactly one entry — the least-recently-used one at the head of the order
list — leaving every other entry's value intact and the order length
unchanged; and every non-expired read hit moves the hit key to the
most-recently-used tail of the order list. -/
theorem lru_eviction_and_recency {V : Type} :
    (∀ (s : CacheState V) (k : Nat) (v : V) (now : Int) (oldest : Nat)
        (rest : List Nat),
      MemInv s → containsA s.cache k = false → s.maxsize ≤ s.order.length →
      s.order = oldest :: rest →
      (addToMemoryCache s k v now).order = rest ++ [k] ∧
      lookupA (addToMemoryCache s k v now).cache oldest = none ∧
      (∀ x ∈ rest, lookupA (addToMemoryCache s k v now).cache x = lookupA s.cache x) ∧
      (addToMemoryCache s k v now).order.length = s.order.length) ∧
    (∀ (s : CacheState V) (k : Nat) (now : Int) (dbr : Option V) (v : V),
      lookupA s.cache k = some v → isExpired s k now = false →
      (get_cache s k now dbr).1.order = s.order.erase k ++ [k] ∧
      ((get_cache s k now dbr).1.order).getLast? = some k) := by
  constructor
  · intro s k v now oldest rest inv hk hcap horder
    have hkmem : k ∉ keysA s.cache := not_mem_keysA_of_contains_false _ _ hk
    have hkord : k ∉ s.order := fun h => hkmem (inv.orderSubCache k h)
    have holdmem : oldest ∈ s.order := by
      rw [horder]
      exact List.mem_cons_self _ _
    have hkneq : oldest ≠ k := fun h => hkord (h ▸ holdmem)
    rw [addToMemoryCache_eq_evict s k v now oldest rest hk hcap horder]
    refine ⟨rfl, ?_, ?_, ?_⟩
    · rw [lookupA_setA_ne _ _ hkneq]
      exact lookupA_eraseA_self _ _
    · intro x hx
      have hxk : x ≠ k := fun h => hkord (by
        rw [horder]
        exact List.mem_cons_of_mem _ (h ▸ hx))
      have hnodup := inv.orderNodup
      rw [horder] at hnodup
      have hxold : x ≠ oldest :=
        fun h => (List.nodup_cons.mp hnodup).1 (h ▸ hx)
      rw [lookupA_setA_ne _ _ hxk, lookupA_eraseA_ne _ hxold]
    · rw [horder]
      simp
  · intro s k now dbr v hl hexp
    unfold get_cache
    simp only [hl, hexp]
    exact ⟨rfl, List.getLast?_concat _⟩

/-- C7 witness: at capacity 2 holding keys 1 (oldest) and 2, inserting key
3 evicts exactly key 1; a hit on key 1 moves it to the tail. -/
theorem lru_eviction_and_recency_witness :
    (addToMemoryCache
        (⟨[(1, 10), (2, 20)], [1, 2], [(1, 0), (2, 0)], 2, 24⟩ : CacheState Nat)
        3 30 0).order = [2, 3] ∧
    (get_cache
        (⟨[(1, 10), (2, 20)], [1, 2], [(1, 0), (2, 0)], 2, 24⟩ : CacheState Nat)
        1 0 none).1.order = [2, 1] := by
  constructor
  · have h := (lru_eviction_and_recency (V := Nat)).1
      ⟨[(1, 10), (2, 20)], [1, 2], [(1, 0), (2, 0)], 2, 24⟩ 3 30 0 1 [2]
      ⟨by decide, by decide, by decide, by decide, by decide, by decide,
        by decide, by decide⟩
      (by decide) (by decide) rfl
    simpa using h.1
  · have h := (lru_eviction_and_recency (V := Nat)).2
      ⟨[(1, 10), (2, 20)], [1, 2], [(1, 0), (2, 0)], 2, 24⟩ 1 0 none 10
      (by decide) (by decide)
    simpa using h.1

/-- C10: every memory-tier operation (get_cache, get_or_set, set_cache,
cleanup_expired, clear) preserves the invariant that the value map, the LRU
order list and the access-time map hold exactly the same keys, that the
order list has no duplicates, and that its length never exceeds the
configured maximum size. -/
theorem memory_tier_invariant_preserved {V : Type} :
    ∀ s : CacheState V, MemInv s → 0 < s.maxsize →
      (∀ (k : Nat) (now : Int) (dbr : Option V),
        MemInv (get_cache s k now dbr).1) ∧
      (∀ (k : Nat) (now : Int) (dbr : Option V) (c : V),
        MemInv (get_or_set s k now dbr c).1) ∧
      (∀ (k : Nat) (v : V) (ttlArg : Nat) (now : Int),
        MemInv (set_cache s k v ttlArg now)) ∧
      (∀ now : Int, MemInv (cleanup_expired s now)) ∧
      MemInv (clear s) := by
  intro s inv hmax
  exact ⟨fun k now dbr => memInv_get_cache s k now dbr inv hmax,
         fun k now dbr c => memInv_get_or_set s k now dbr c inv hmax,
         fun k v ttlArg now => memInv_addToMemoryCache s k v now inv hmax,
         fun now => memInv_cleanup_expired s now inv,
         memInv_clear s inv⟩

/-- C10 witness: the invariant survives a get_cache that misses to the
persistent tier and inserts at capacity on a concrete state. -/
theorem memory_tier_invariant_witness :
    MemInv (get_cache
      (⟨[(1, 10), (2, 20)], [1, 2], [(1, 0), (2, 0)], 2, 24⟩ : CacheState Nat)
      3 0 (some 30)).1 :=
  ((memory_tier_invariant_preserved (V := Nat))
      ⟨[(1, 10), (2, 20)], [1, 2], [(1, 0), (2, 0)], 2, 24⟩
      ⟨by decide, by decide, by decide, by decide, by decide, by decide,
        by decide, by decide⟩
      (by decide)).1 3 0 (some 30)

/-! ## String lemmas for the manual-parse fallback (claim C8) -/

theorem isPrefixOf_append_self (l t : List Char) : l.isPrefixOf (l ++ t) = true := by
  induction l with
  | nil => simp
  | cons a as ih => simp [List.isPrefixOf_cons₂, ih]

theorem findIdx?_first_occurrence (pat p1 rest : List Char) (c0 : Char)
    (hhead : pat.head? = some c0) (hc0 : c0 ∉ p1)
    (hpre : pat.isPrefixOf rest = true) :
    findIdx? pat (p1 ++ rest) = some p1.length := by
  induction p1 with
  | nil =>
    simp only [List.nil_append]
    cases rest with
    | nil =>
      cases pat with
      | nil => simp at hhead
      | cons a as => simp at hpre
    | cons r rt =>
      simp [findIdx?, hpre]
  | cons c p1' ih =>
    have hc : c0 ∉ p1' := fun h => hc0 (List.mem_cons_of_mem _ h)
    have hne : pat.isPrefixOf (c :: (p1' ++ rest)) = false := by
      cases pat with
      | nil => simp at hhead
      | cons a as =>
        have ha : a = c0 := by simpa using hhead
        subst ha
        have hcc : a ≠ c := fun h => hc0 (h ▸ List.mem_cons_self c p1')
        rw [List.isPrefixOf_cons₂]
        simp [hcc]
    simp [findIdx?, hne, ih hc]

theorem take_length_add_append {α : Type _} (a b : List α) (n : Nat) :
    (a ++ b).take (a.length + n) = a ++ b.take n := by
  induction a with
  | nil => simp
  | cons x xs ih =>
    have h : xs.length + 1 + n = (xs.length + n) + 1 := by omega
    simp only [List.cons_append, List.length_cons, h, List.take_succ_cons, ih]

theorem take_length_append {α : Type _} (a b : List α) :
    (a ++ b).take a.length = a := by
  have h := take_length_add_append a b 0
  simpa using h

/-- Stripping the newline wrapper around a brace-delimited document. -/
theorem pyStrip_newline_wrap (M : List Char) :
    pyStrip ('\n' :: (('\x7b' :: (M ++ ['\x7d'])) ++ ['\n'])) =
      '\x7b' :: (M ++ ['\x7d']) := by
  have hnl : pyIsSpace '\n' = true := by decide
  have hob : pyIsSpace '\x7b' = false := by decide
  have hcb : pyIsSpace '\x7d' = false := by decide
  unfold pyStrip
  rw [List.dropWhile_cons]
  simp only [hnl, if_true, List.cons_append, List.dropWhile_cons, hob,
    Bool.false_eq_true, if_false]
  have hrev : ('\x7b' :: ((M ++ ['\x7d']) ++ ['\n'])).reverse
      = '\n' :: '\x7d' :: (M.reverse ++ ['\x7b']) := by
    simp
  rw [hrev, List.dropWhile_cons]
  simp only [hnl, if_true, List.dropWhile_cons, hcb, Bool.false_eq_true, if_false]
  simp

/-- Slicing out the exact middle segment of a three-part concatenation. -/
theorem pySlice_middle (A B C : List Char) :
    pySlice (A ++ (B ++ C)) ((A.length : Nat) : Int)
      ((A.length + B.length : Nat) : Int) = B := by
  unfold pySlice pySliceIdx
  have hn : (A ++ (B ++ C)).length = A.length + (B.length + C.length) := by
    simp
  have hb0 : ¬((A.length + B.length : Nat) : Int) < 0 := by
    omega
  have ha0 : ¬((A.length : Nat) : Int) < 0 := by
    omega
  rw [if_neg hb0, if_neg ha0, hn]
  have hminb : min ((A.length + B.length : Nat) : Int)
      ((A.length + (B.length + C.length) : Nat) : Int)
      = ((A.length + B.length : Nat) : Int) := by
    apply min_eq_left
    push_cast
    omega
  have hmina : min ((A.length : Nat) : Int)
      ((A.length + (B.length + C.length) : Nat) : Int)
      = ((A.length : Nat) : Int) := by
    apply min_eq_left
    push_cast
    omega
  push_cast at hminb hmina ⊢
  rw [hminb, hmina]
  have htb : ((A.length : Int) + (B.length : Int)).toNat = A.length + B.length := by
    omega
  have hta : ((A.length : Int)).toNat = A.length := by
    omega
  rw [htb, hta, take_length_add_append, take_length_append, List.drop_left]

/-- The extraction prelude recovers the embedded document from a fenced raw
string whose surrounding prose contains no backtick. -/
theorem extractJsonStr_fenced (p1 M p2 : List Char)
    (h1 : '\x60' ∉ p1) (h2 : '\x60' ∉ M) :
    extractJsonStr (p1 ++ fenceJson ++ ['\n'] ++ ('\x7b' :: M ++ ['\x7d'])
        ++ ['\n'] ++ fenceStr ++ p2)
      = '\x7b' :: M ++ ['\x7d'] := by
  set J : List Char := '\x7b' :: M ++ ['\x7d'] with hJ
  have hJfree : '\x60' ∉ J := by
    rw [hJ]
    intro h
    rcases List.mem_cons.mp h with h | h
    · exact absurd h.symm (by decide)
    · rcases List.mem_append.mp h with h | h
      · exact h2 h
      · rcases List.mem_singleton.mp h with h
        exact absurd h (by decide)
  -- the first fence occurrence
  have hfind1 : findIdx? fenceJson
      (p1 ++ (fenceJson ++ (['\n'] ++ (J ++ (['\n'] ++ (fenceStr ++ p2))))))
        = some p1.length := by
    exact findIdx?_first_occurrence fenceJson p1 _ '\x60' (by decide) h1
      (isPrefixOf_append_self fenceJson _)
  -- the closing fence occurrence, searched after the opening tag
  have hfind2 : findIdx? fenceStr
      (('\n' :: (J ++ ['\n'])) ++ (fenceStr ++ p2)) = some (J.length + 2) := by
    have hnotin : '\x60' ∉ '\n' :: (J ++ ['\n']) := by
      intro h
      rcases List.mem_cons.mp h with h | h
      · exact absurd h.symm (by decide)
      · rcases List.mem_append.mp h with h | h
        · exact hJfree h
        · rcases List.mem_singleton.mp h with h
          exact absurd h (by decide)
    have h := findIdx?_first_occurrence fenceStr ('\n' :: (J ++ ['\n']))
      (fenceStr ++ p2) '\x60' (by decide) hnotin (isPrefixOf_append_self fenceStr p2)
    simpa using h
  have hlen7 : fenceJson.length = 7 := rfl
  -- assemble the computation
  unfold extractJsonStr
  have hassoc : p1 ++ fenceJson ++ ['\n'] ++ J ++ ['\n'] ++ fenceStr ++ p2
      = p1 ++ (fenceJson ++ (['\n'] ++ (J ++ (['\n'] ++ (fenceStr ++ p2))))) := by
    simp [List.append_assoc]
  rw [hassoc]
  have hcontains : containsSub
      (p1 ++ (fenceJson ++ (['\n'] ++ (J ++ (['\n'] ++ (fenceStr ++ p2))))))
      fenceJson = true := by
    unfold containsSub
    rw [hfind1]
    rfl
  rw [if_pos hcontains]
  have hpf : pyFind
      (p1 ++ (fenceJson ++ (['\n'] ++ (J ++ (['\n'] ++ (fenceStr ++ p2))))))
      fenceJson = (p1.length : Int) := by
    unfold pyFind
    rw [hfind1]
  rw [hpf]
  -- the drop at the search start
  have hdrop : (p1 ++ (fenceJson ++ (['\n'] ++ (J ++ (['\n'] ++ (fenceStr ++ p2)))))).drop
      (p1.length + 7) = '\n' :: (J ++ (['\n'] ++ (fenceStr ++ p2))) := by
    have : p1 ++ (fenceJson ++ (['\n'] ++ (J ++ (['\n'] ++ (fenceStr ++ p2)))))
        = (p1 ++ fenceJson) ++ ('\n' :: (J ++ (['\n'] ++ (fenceStr ++ p2)))) := by
      simp [List.append_assoc]
    rw [this]
    have hlen : (p1 ++ fenceJson).length = p1.length + 7 := by
      simp [hlen7]
    rw [List.drop_left' hlen]
  have hff : pyFindFrom
      (p1 ++ (fenceJson ++ (['\n'] ++ (J ++ (['\n'] ++ (fenceStr ++ p2))))))
      fenceStr ((p1.length : Int) + 7) = ((p1.length + 7 + (J.length + 2) : Nat) : Int) := by
    unfold pyFindFrom
    have hmax : max ((p1.length : Int) + 7) 0 = (p1.length : Int) + 7 := by
      apply max_eq_left
      omega
    have htn : ((p1.length : Int) + 7).toNat = p1.length + 7 := by
      omega
    rw [hmax, htn, hdrop]
    have hre : '\n' :: (J ++ (['\n'] ++ (fenceStr ++ p2)))
        = ('\n' :: (J ++ ['\n'])) ++ (fenceStr ++ p2) := by
      simp
    rw [hre, hfind2]
  rw [hff]
  -- the slice between the two fences
  have hre2 : p1 ++ (fenceJson ++ (['\n'] ++ (J ++ (['\n'] ++ (fenceStr ++ p2)))))
      = (p1 ++ fenceJson) ++ (('\n' :: (J ++ ['\n'])) ++ (fenceStr ++ p2)) := by
    simp
  have hia : ((p1.length : Int) + 7) = (((p1 ++ fenceJson).length : Nat) : Int) := by
    simp [hlen7]
  have hib : ((p1.length + 7 + (J.length + 2) : Nat) : Int)
      = (((p1 ++ fenceJson).length + ('\n' :: (J ++ ['\n'])).length : Nat) : Int) := by
    simp [hlen7]
    push_cast
    ring
  rw [hre2, hia, hib, pySlice_middle]
  exact pyStrip_newline_wrap M

/-- C8: for a raw string that wraps a brace-delimited lessons JSON document
in a markdown json code fence surrounded by backtick-free prose, the manual
fallback returns exactly what direct parsing of the embedded document
returns — for every json.loads function; and whenever loading or
field-level mapping of the extracted span fails, the fallback returns the
empty list instead of raising. -/
theorem manual_fallback_matches_direct :
    (∀ (loads : List Char → Option Json) (p1 M p2 : List Char),
      '\x60' ∉ p1 → '\x60' ∉ M →
      manualParseLessons loads
          (p1 ++ fenceJson ++ ['\n'] ++ ('\x7b' :: M ++ ['\x7d']) ++ ['\n']
            ++ fenceStr ++ p2)
        = directParseLessons loads ('\x7b' :: M ++ ['\x7d'])) ∧
    (∀ (loads : List Char → Option Json) (raw : List Char),
      loads (extractJsonStr raw) >>= lessonsOfJson = none →
      manualParseLessons loads raw = []) := by
  constructor
  · intro loads p1 M p2 h1 h2
    unfold manualParseLessons directParseLessons
    rw [extractJsonStr_fenced p1 M p2 h1 h2]
  · intro loads raw h
    unfold manualParseLessons
    rw [h]

/-- C8 witness: the concrete raw string of the spec scenario, with a loads
function recognising the embedded document. -/
theorem manual_fallback_witness :
    manualParseLessons loadsW rawW = directParseLessons loadsW lessonsDocW ∧
    directParseLessons loadsW lessonsDocW = [] ∧
    manualParseLessons (fun _ => none) "no json here".toList = [] := by
  refine ⟨?_, ?_, ?_⟩
  · exact (manual_fallback_matches_direct).1 loadsW "Here is the result:".toList
      lessonsBodyW "Thanks".toList (by decide) (by decide)
  · decide
  · exact (manual_fallback_matches_direct).2 (fun _ => none) _ rfl

/-! ## Claim C3: per-lesson sub-pipeline isolation -/

theorem exceptBranch_index (loads : List Char → Option Json) (qid idx : Nat)
    (e : GenErr) (q : GenResult Quiz) :
    ∀ w ∈ exceptBranch loads qid idx e q, w.lessonIndex = idx := by
  intro w hw
  unfold exceptBranch at hw
  cases he : e.lmResponse with
  | none =>
    simp only [he] at hw
    simp at hw
  | some raw =>
    simp only [he] at hw
    cases hm : manualParseFlashcards loads raw with
    | nil =>
      simp only [hm] at hw
      simp at hw
    | cons c cs =>
      simp only [hm] at hw
      rcases List.mem_cons.mp hw with h | h
      · rw [h]
        rfl
      · cases q with
        | ok qz => simp at h
        | error qe =>
          cases hqe : qe.lmResponse with
          | none =>
            simp only [hqe] at h
            simp at h
          | some qraw =>
            simp only [hqe] at h
            cases hq : manualParseQuiz loads qraw with
            | none =>
              simp only [hq] at h
              simp at h
            | some qz =>
              simp only [hq] at h
              rcases List.mem_singleton.mp h with h
              rw [h]
              rfl

theorem subPipeline_index (loads : List Char → Option Json) (qid idx : Nat)
    (o : LessonOracle) :
    ∀ w ∈ subPipeline loads qid idx o, w.lessonIndex = idx := by
  intro w hw
  unfold subPipeline at hw
  cases hfc : o.fcGen with
  | error e =>
    simp only [hfc] at hw
    exact exceptBranch_index loads qid idx e o.quizRetry w hw
  | ok cards =>
    simp only [hfc] at hw
    rcases List.mem_cons.mp hw with h | h
    · rw [h]
      rfl
    · cases hq : o.quizGen with
      | ok qz =>
        simp only [hq] at h
        rcases List.mem_singleton.mp h with h
        rw [h]
        rfl
      | error e2 =>
        simp only [hq] at h
        exact exceptBranch_index loads qid idx e2 o.quizRetry w h

theorem runSubAux_index_lower (loads : List Char → Option Json) (qid : Nat)
    (oracles : List LessonOracle) :
    ∀ start : Nat, ∀ w ∈ runSubAux loads qid start oracles, start ≤ w.lessonIndex := by
  induction oracles with
  | nil =>
    intro start w hw
    simp [runSubAux] at hw
  | cons o rest ih =>
    intro start w hw
    unfold runSubAux at hw
    rcases List.mem_append.mp hw with h | h
    · rw [subPipeline_index loads qid start o w h]
    · exact Nat.le_trans (Nat.le_succ start) (ih (start + 1) w h)

theorem writesForLesson_runSubAux (loads : List Char → Option Json) (qid : Nat)
    (oracles : List LessonOracle) :
    ∀ (start i : Nat) (oi : LessonOracle), oracles.get? i = some oi →
      writesForLesson (start + i) (runSubAux loads qid start oracles)
        = subPipeline loads qid (start + i) oi := by
  induction oracles with
  | nil =>
    intro start i oi hi
    simp at hi
  | cons o rest ih =>
    intro start i oi hi
    unfold runSubAux writesForLesson
    rw [List.filter_append]
    cases i with
    | zero =>
      have ho : o = oi := by
        simpa using hi
      subst ho
      have hfirst : (subPipeline loads qid start o).filter
          (fun w => w.lessonIndex == start + 0) = subPipeline loads qid start o := by
        rw [List.filter_eq_self]
        intro w hw
        simp [subPipeline_index loads qid start o w hw]
      have hrest : (runSubAux loads qid (start + 1) rest).filter
          (fun w => w.lessonIndex == start + 0) = [] := by
        rw [List.filter_eq_nil_iff]
        intro w hw
        have := runSubAux_index_lower loads qid rest (start + 1) w hw
        simp
        omega
      rw [hfirst, hrest, List.append_nil, Nat.add_zero]
    | succ i' =>
      have hi' : rest.get? i' = some oi := by
        simpa using hi
      have hfirst : (subPipeline loads qid start o).filter
          (fun w => w.lessonIndex == start + (i' + 1)) = [] := by
        rw [List.filter_eq_nil_iff]
        intro w hw
        have := subPipeline_index loads qid start o w hw
        simp
        omega
      have hrest := ih (start + 1) i' oi hi'
      unfold writesForLesson at hrest
      have harith : start + 1 + i' = start + (i' + 1) := by
        omega
      rw [harith] at hrest
      rw [hfirst, hrest, List.nil_append]

/-- C3: in the per-lesson fan-out of a lessons job, if the flashcard
generation of lesson j raises, every other lesson's sub-pipeline still runs
and persists exactly the writes its own generation outcomes determine — in
particular the flashcards and quiz rows when its generations succeed — and
the parent lessons job's terminal status is still completed (the
sub-pipelines are fire-and-forget and never touch the job row). -/
theorem lesson_subpipeline_isolation :
    ∀ (loads : List Char → Option Json) (qid : Nat)
      (oracles : List LessonOracle) (i j : Nat) (oi oj : LessonOracle)
      (e : GenErr),
      oracles.get? j = some oj → oj.fcGen = GenResult.error e →
      oracles.get? i = some oi → i ≠ j →
      (processLessonsJob loads qid oracles).1 = JStatus.completed ∧
      writesForLesson i (processLessonsJob loads qid oracles).2
        = subPipeline loads qid i oi ∧
      (∀ (cards : List Card) (qz : Quiz),
        oi.fcGen = GenResult.ok cards → oi.quizGen = GenResult.ok qz →
        writesForLesson i (processLessonsJob loads qid oracles).2
          = [DbWrite.fc qid i cards, DbWrite.quiz qid i qz]) := by
  intro loads qid oracles i j oi oj e hj hje hi hij
  have hw : writesForLesson i (processLessonsJob loads qid oracles).2
      = subPipeline loads qid i oi := by
    have h := writesForLesson_runSubAux loads qid oracles 0 i oi hi
    simpa [processLessonsJob, runSubpipelines] using h
  refine ⟨rfl, hw, ?_⟩
  intro cards qz hfc hq
  rw [hw]
  unfold subPipeline
  rw [hfc, hq]

/-- C3 witness: two lessons, the second failing flashcard generation; the
first still persists its flashcards and quiz and the job is completed. -/
theorem lesson_subpipeline_isolation_witness :
    (processLessonsJob loadsW 5 [oracleOkW, oracleFailW]).1 = JStatus.completed ∧
    writesForLesson 0 (processLessonsJob loadsW 5 [oracleOkW, oracleFailW]).2
      = [DbWrite.fc 5 0 [cardW], DbWrite.quiz 5 0 quizW] := by
  have h := lesson_subpipeline_isolation loadsW 5 [oracleOkW, oracleFailW]
    0 1 oracleOkW oracleFailW ⟨none⟩ rfl rfl rfl (by decide)
  exact ⟨h.1, h.2.2 [cardW] quizW rfl rfl⟩

/-! ## Helper lemmas for the task-queue machine (claims C1 and C2) -/

theorem writesFor_append_self (id : Nat) (h : List (Nat × JStatus)) (st : JStatus) :
    writesFor id (h ++ [(id, st)]) = writesFor id h ++ [st] := by
  unfold writesFor
  rw [List.filter_append]
  simp

theorem writesFor_append_ne (id id' : Nat) (h : List (Nat × JStatus)) (st : JStatus)
    (hne : id' ≠ id) : writesFor id' (h ++ [(id, st)]) = writesFor id' h := by
  unfold writesFor
  rw [List.filter_append]
  simp [Ne.symm hne]

theorem chainOk_append_last (l : List JStatus) (st : JStatus)
    (h : chainOk l = true)
    (hlast : ∀ p, l.getLast? = some p → p.rank ≤ st.rank ∧ p.isTerminal = false) :
    chainOk (l ++ [st]) = true := by
  induction l with
  | nil => rfl
  | cons a rest ih =>
    cases rest with
    | nil =>
      have := hlast a rfl
      simp [chainOk, this.1, this.2]
    | cons b r =>
      unfold chainOk at h
      have h1 := Bool.and_elim_left (Bool.and_elim_left h)
      have h2 := Bool.and_elim_right (Bool.and_elim_left h)
      have h3 := Bool.and_elim_right h
      have ihr := ih h3 (fun p hp => hlast p (by
        rw [List.getLast?_cons_cons]
        exact hp))
      simp only [List.cons_append]
      unfold chainOk
      simp only [List.cons_append] at ihr
      rw [ihr]
      simp at h1 h2 ⊢
      exact ⟨h1, h2⟩

theorem keysA_eq_map {V : Type} (l : Assoc V) : keysA l = l.map Prod.fst := by
  induction l with
  | nil => rfl
  | cons p rest ih =>
    obtain ⟨k, v⟩ := p
    simp [keysA, ih]

theorem lookupA_eq_some_of_mem {V : Type} (l : Assoc V) (k : Nat) (v : V)
    (hnodup : (keysA l).Nodup) (hmem : (k, v) ∈ l) : lookupA l k = some v := by
  induction l with
  | nil => simp at hmem
  | cons p rest ih =>
    obtain ⟨k0, v0⟩ := p
    rcases List.mem_cons.mp hmem with h | h
    · simp at h
      obtain ⟨hk, hv⟩ := h
      subst hk
      subst hv
      simp [lookupA]
    · have hk0 : k0 ≠ k := by
        intro he
        have : k ∈ keysA rest := by
          rw [keysA_eq_map]
          exact List.mem_map.mpr ⟨(k, v), h, rfl⟩
        rw [keysA] at hnodup
        exact (List.nodup_cons.mp hnodup).1 (he ▸ this)
      have hrest : (keysA rest).Nodup := by
        rw [keysA] at hnodup
        exact (List.nodup_cons.mp hnodup).2
      simp [lookupA, hk0, ih hrest h]

theorem mem_keysA_filter_iff {V : Type} (l : Assoc V) (pred : Nat × V → Bool)
    (hnodup : (keysA l).Nodup) (k : Nat) :
    k ∈ keysA (l.filter pred) ↔
      ∃ v, lookupA l k = some v ∧ pred (k, v) = true := by
  induction l with
  | nil => simp [keysA, lookupA]
  | cons p rest ih =>
    obtain ⟨k0, v0⟩ := p
    have hk0 : k0 ∉ keysA rest := by
      rw [keysA] at hnodup
      exact (List.nodup_cons.mp hnodup).1
    have hrest : (keysA rest).Nodup := by
      rw [keysA] at hnodup
      exact (List.nodup_cons.mp hnodup).2
    by_cases hp : pred (k0, v0) = true
    · rw [List.filter_cons_of_pos hp]
      by_cases hk : k0 = k
      · subst hk
        simp [keysA, lookupA, hp]
      · simp only [keysA, List.mem_cons]
        rw [ih hrest]
        constructor
        · intro h
          rcases h with h | h
          · exact absurd h.symm hk
          · obtain ⟨v, hv, hpv⟩ := h
            exact ⟨v, by simp [lookupA, hk, hv], hpv⟩
        · intro h
          obtain ⟨v, hv, hpv⟩ := h
          simp [lookupA, hk] at hv
          exact Or.inr ⟨v, hv, hpv⟩
    · rw [List.filter_cons_of_neg (by simpa using hp)]
      by_cases hk : k0 = k
      · subst hk
        rw [ih hrest]
        constructor
        · intro h
          obtain ⟨v, hv, hpv⟩ := h
          have hmem : k0 ∈ keysA rest :=
            (mem_keysA_iff_lookupA rest k0).mpr (by simp [hv])
          exact absurd hmem hk0
        · intro h
          obtain ⟨v, hv, hpv⟩ := h
          simp [lookupA] at hv
          rw [← hv] at hpv
          exact absurd hpv (by simpa using hp)
      · rw [ih hrest]
        constructor
        · intro h
          obtain ⟨v, hv, hpv⟩ := h
          exact ⟨v, by simp [lookupA, hk, hv], hpv⟩
        · intro h
          obtain ⟨v, hv, hpv⟩ := h
          simp [lookupA, hk] at hv
          exact ⟨v, hv, hpv⟩

theorem pendingIds_nodup (store : Assoc JStatus)
    (hnodup : (keysA store).Nodup) : (pendingIds store).Nodup := by
  unfold pendingIds
  rw [keysA_eq_map]
  rw [keysA_eq_map] at hnodup
  exact hnodup.sublist ((List.filter_sublist store).map Prod.fst)

theorem count_eq_ite_of_nodup (l : List Nat) (hn : l.Nodup) (a : Nat) :
    l.count a = if a ∈ l then 1 else 0 := by
  by_cases h : a ∈ l
  · have h1 := List.nodup_iff_count_le_one.mp hn a
    have h2 : 0 < l.count a := List.count_pos_iff.mpr h
    simp [h]
    omega
  · simp [h, List.count_eq_zero.mpr h]

theorem mem_pendingIds_iff (store : Assoc JStatus)
    (hnodup : (keysA store).Nodup) (id : Nat) :
    id ∈ pendingIds store ↔
      lookupA store id = some JStatus.pending ∨
      lookupA store id = some JStatus.processing := by
  unfold pendingIds
  rw [mem_keysA_filter_iff _ _ hnodup]
  constructor
  · intro h
    obtain ⟨v, hv, hpv⟩ := h
    simp at hpv
    rcases hpv with h | h
    · exact Or.inl (h ▸ hv)
    · exact Or.inr (h ▸ hv)
  · intro h
    rcases h with h | h
    · exact ⟨JStatus.pending, h, by simp⟩
    · exact ⟨JStatus.processing, h, by simp⟩

theorem count_map_fst_erasePair (l : List (Nat × Bool)) (p : Nat × Bool) (x : Nat)
    (hp : p ∈ l) :
    (l.map Prod.fst).count x
      = ((erasePair l p).map Prod.fst).count x + (if p.1 = x then 1 else 0) := by
  induction l with
  | nil => simp at hp
  | cons q rest ih =>
    by_cases hq : q = p
    · subst hq
      rw [erasePair]
      simp only [if_pos rfl, List.map_cons, List.count_cons]
      by_cases h : q.1 = x
      · simp [h]
      · simp [h]
    · have hp' : p ∈ rest := by
        rcases List.mem_cons.mp hp with h | h
        · exact absurd h.symm hq
        · exact h
      rw [erasePair]
      simp only [if_neg hq, List.map_cons, List.count_cons]
      rw [ih hp']
      omega

theorem sysInv_submitCreate (s : SysState) (id : Nat) (inv : SysInv s)
    (hrec : s.recovered = true) (hl : lookupA s.store id = none) :
    SysInv { s with store := setA s.store id JStatus.pending,
                    submitBuf := s.submitBuf ++ [id],
                    history := s.history ++ [(id, JStatus.pending)] } := by
  have hidmem : id ∉ keysA s.store := by
    rw [mem_keysA_iff_lookupA]
    simp [hl]
  have hlive0 : liveCount s id = 0 := by
    by_contra h
    rcases inv.liveStatus id (Nat.pos_of_ne_zero h) with h1 | h1 <;>
      simp [hl] at h1
  have hlc : ∀ x, liveCount
      { s with store := setA s.store id JStatus.pending,
               submitBuf := s.submitBuf ++ [id],
               history := s.history ++ [(id, JStatus.pending)] } x
      = liveCount s x + (if id = x then 1 else 0) := by
    intro x
    unfold liveCount
    dsimp only
    simp only [List.count_append, List.count_singleton]
    by_cases hx : id = x
    · simp [hx]
      omega
    · simp [hx]
  refine ⟨?_, ?_, ?_, ?_, ?_, ?_⟩
  · rw [keysA_setA_of_not_mem _ _ _ hidmem]
    exact nodup_append_singleton inv.storeNodup hidmem
  · intro x
    by_cases hx : x = id
    · subst hx
      rw [writesFor_append_self, List.getLast?_concat, lookupA_setA_self]
    · rw [writesFor_append_ne _ _ _ _ hx, lookupA_setA_ne _ _ hx]
      exact inv.histLast x
  · intro x
    by_cases hx : x = id
    · subst hx
      rw [writesFor_append_self]
      apply chainOk_append_last _ _ (inv.histOk x)
      intro p hp
      have h2 := inv.histLast x
      rw [hp, hl] at h2
      simp at h2
    · rw [writesFor_append_ne _ _ _ _ hx]
      exact inv.histOk x
  · intro x
    rw [hlc x]
    by_cases hx : id = x
    · subst hx
      rw [hlive0]
      simp
    · simp [hx]
      exact inv.liveOnce x
  · intro x hpos
    rw [hlc x] at hpos
    by_cases hx : x = id
    · subst hx
      exact Or.inl (lookupA_setA_self _ _ _)
    · rw [lookupA_setA_ne _ _ hx]
      apply inv.liveStatus
      have hne : (if id = x then 1 else 0) = 0 := by
        simp [Ne.symm hx]
      rw [hne] at hpos
      simpa using hpos
  · intro h
    have h' : s.recovered = false := h
    rw [hrec] at h'
    simp at h'

theorem sysInv_submitPut (s : SysState) (id : Nat) (inv : SysInv s)
    (hmem : id ∈ s.submitBuf) :
    SysInv { s with submitBuf := s.submitBuf.erase id,
                    queue := s.queue ++ [id] } := by
  have hlc : ∀ x, liveCount
      { s with submitBuf := s.submitBuf.erase id, queue := s.queue ++ [id] } x
      = liveCount s x := by
    intro x
    unfold liveCount
    dsimp only
    simp only [List.count_append, List.count_singleton]
    by_cases hx : id = x
    · subst hx
      have hpos : 0 < s.submitBuf.count id := List.count_pos_iff.mpr hmem
      rw [List.count_erase_self]
      simp
      omega
    · rw [List.count_erase_of_ne (fun h => hx h.symm)]
      simp [hx]
  refine ⟨inv.storeNodup, inv.histLast, inv.histOk, ?_, ?_, ?_⟩
  · intro x
    rw [hlc x]
    exact inv.liveOnce x
  · intro x hpos
    rw [hlc x] at hpos
    exact inv.liveStatus x hpos
  · intro h
    have h' : s.recovered = false := h
    have hbuf := (inv.notRecovered h').2.1
    rw [hbuf] at hmem
    simp at hmem

theorem sysInv_recoveryScan (s : SysState) (inv : SysInv s)
    (hrec : s.recovered = false) :
    SysInv { s with recoveryBuf := pendingIds s.store, recovered := true } := by
  obtain ⟨hq, hsb, hrb, hwk⟩ := inv.notRecovered hrec
  have hlc : ∀ x, liveCount
      { s with recoveryBuf := pendingIds s.store, recovered := true } x
      = (pendingIds s.store).count x := by
    intro x
    unfold liveCount
    dsimp only
    rw [hq, hsb, hwk]
    simp
  have hnodup := pendingIds_nodup s.store inv.storeNodup
  refine ⟨inv.storeNodup, inv.histLast, inv.histOk, ?_, ?_, ?_⟩
  · intro x
    rw [hlc x]
    exact List.nodup_iff_count_le_one.mp hnodup x
  · intro x hpos
    rw [hlc x] at hpos
    have hxmem : x ∈ pendingIds s.store := List.count_pos_iff.mp hpos
    exact (mem_pendingIds_iff s.store inv.storeNodup x).mp hxmem
  · intro h
    simp at h

theorem sysInv_recoveryPut (s : SysState) (id : Nat) (rest : List Nat)
    (inv : SysInv s) (hbuf : s.recoveryBuf = id :: rest) :
    SysInv { s with recoveryBuf := rest, queue := s.queue ++ [id] } := by
  have hlc : ∀ x, liveCount
      { s with recoveryBuf := rest, queue := s.queue ++ [id] } x
      = liveCount s x := by
    intro x
    unfold liveCount
    dsimp only
    rw [hbuf]
    simp only [List.count_append, List.count_singleton, List.count_cons]
    by_cases hx : id = x
    · simp [hx]
      omega
    · simp [hx]
  refine ⟨inv.storeNodup, inv.histLast, inv.histOk, ?_, ?_, ?_⟩
  · intro x
    rw [hlc x]
    exact inv.liveOnce x
  · intro x hpos
    rw [hlc x] at hpos
    exact inv.liveStatus x hpos
  · intro h
    have h' : s.recovered = false := h
    have hrb := (inv.notRecovered h').2.2.1
    rw [hrb] at hbuf
    simp at hbuf

theorem sysInv_recoveryFail (s : SysState) (id : Nat) (rest : List Nat)
    (inv : SysInv s) (hbuf : s.recoveryBuf = id :: rest) :
    SysInv { s with recoveryBuf := rest,
                    store := setA s.store id JStatus.failed,
                    history := s.history ++ [(id, JStatus.failed)] } := by
  have hlivepos : 0 < liveCount s id := by
    unfold liveCount
    rw [hbuf]
    simp
  have hst := inv.liveStatus id hlivepos
  have hmem : id ∈ keysA s.store := by
    rw [mem_keysA_iff_lookupA]
    rcases hst with h | h <;> simp [h]
  have hlive1 : liveCount s id = 1 := Nat.le_antisymm (inv.liveOnce id) hlivepos
  have hcounts : s.queue.count id = 0 ∧ s.submitBuf.count id = 0 ∧
      rest.count id = 0 ∧ (s.workers.map Prod.fst).count id = 0 := by
    have h1 := hlive1
    unfold liveCount at h1
    rw [hbuf] at h1
    simp only [List.count_cons] at h1
    simp at h1
    omega
  have hlc : ∀ x, liveCount
      { s with recoveryBuf := rest,
               store := setA s.store id JStatus.failed,
               history := s.history ++ [(id, JStatus.failed)] } x
      = liveCount s x - (if id = x then 1 else 0) := by
    intro x
    unfold liveCount
    dsimp only
    rw [hbuf]
    simp only [List.count_cons]
    by_cases hx : id = x
    · simp [hx]
      omega
    · simp [hx]
  refine ⟨?_, ?_, ?_, ?_, ?_, ?_⟩
  · rw [keysA_setA_of_mem _ _ _ hmem]
    exact inv.storeNodup
  · intro x
    by_cases hx : x = id
    · subst hx
      rw [writesFor_append_self, List.getLast?_concat, lookupA_setA_self]
    · rw [writesFor_append_ne _ _ _ _ hx, lookupA_setA_ne _ _ hx]
      exact inv.histLast x
  · intro x
    by_cases hx : x = id
    · subst hx
      rw [writesFor_append_self]
      apply chainOk_append_last _ _ (inv.histOk x)
      intro p hp
      have h2 := inv.histLast x
      rw [hp] at h2
      rcases hst with h | h <;> rw [h] at h2 <;>
        (injection h2 with h3
         subst h3
         exact ⟨by decide, by decide⟩)
    · rw [writesFor_append_ne _ _ _ _ hx]
      exact inv.histOk x
  · intro x
    rw [hlc x]
    have := inv.liveOnce x
    omega
  · intro x hpos
    rw [hlc x] at hpos
    by_cases hx : x = id
    · subst hx
      rw [hlive1] at hpos
      simp at hpos
    · rw [lookupA_setA_ne _ _ hx]
      apply inv.liveStatus
      have hne : (if id = x then 1 else 0) = 0 := by
        simp [Ne.symm hx]
      rw [hne] at hpos
      omega
  · intro h
    have h' : s.recovered = false := h
    have hrb := (inv.notRecovered h').2.2.1
    rw [hrb] at hbuf
    simp at hbuf

theorem sysInv_dequeue (s : SysState) (id : Nat) (rest : List Nat)
    (inv : SysInv s) (hq : s.queue = id :: rest) :
    SysInv { s with queue := rest, workers := s.workers ++ [(id, false)] } := by
  have hlc : ∀ x, liveCount
      { s with queue := rest, workers := s.workers ++ [(id, false)] } x
      = liveCount s x := by
    intro x
    unfold liveCount
    dsimp only
    rw [hq]
    simp only [List.map_append, List.count_append, List.count_cons,
      List.map_cons, List.map_nil, List.count_singleton]
    by_cases hx : id = x
    · simp [hx]
      omega
    · simp [hx]
  refine ⟨inv.storeNodup, inv.histLast, inv.histOk, ?_, ?_, ?_⟩
  · intro x
    rw [hlc x]
    exact inv.liveOnce x
  · intro x hpos
    rw [hlc x] at hpos
    exact inv.liveStatus x hpos
  · intro h
    have h' : s.recovered = false := h
    have hqe := (inv.notRecovered h').1
    rw [hqe] at hq
    simp at hq

theorem sysInv_markProcessing (s : SysState) (id : Nat) (inv : SysInv s)
    (hw : (id, false) ∈ s.workers) :
    SysInv { s with workers := erasePair s.workers (id, false) ++ [(id, true)],
                    store := setA s.store id JStatus.processing,
                    history := s.history ++ [(id, JStatus.processing)] } := by
  have hlivepos : 0 < liveCount s id := by
    unfold liveCount
    have : 0 < (s.workers.map Prod.fst).count id := by
      apply List.count_pos_iff.mpr
      exact List.mem_map.mpr ⟨(id, false), hw, rfl⟩
    omega
  have hst := inv.liveStatus id hlivepos
  have hmem : id ∈ keysA s.store := by
    rw [mem_keysA_iff_lookupA]
    rcases hst with h | h <;> simp [h]
  have hcount := count_map_fst_erasePair s.workers (id, false) id hw
  have hlc : ∀ x, liveCount
      { s with workers := erasePair s.workers (id, false) ++ [(id, true)],
               store := setA s.store id JStatus.processing,
               history := s.history ++ [(id, JStatus.processing)] } x
      = liveCount s x := by
    intro x
    unfold liveCount
    dsimp only
    simp only [List.map_append, List.count_append, List.map_cons, List.map_nil,
      List.count_singleton]
    have hc := count_map_fst_erasePair s.workers (id, false) x hw
    by_cases hx : id = x
    · subst hx
      simp at hc ⊢
      omega
    · simp [hx] at hc ⊢
      omega
  refine ⟨?_, ?_, ?_, ?_, ?_, ?_⟩
  · rw [keysA_setA_of_mem _ _ _ hmem]
    exact inv.storeNodup
  · intro x
    by_cases hx : x = id
    · subst hx
      rw [writesFor_append_self, List.getLast?_concat, lookupA_setA_self]
    · rw [writesFor_append_ne _ _ _ _ hx, lookupA_setA_ne _ _ hx]
      exact inv.histLast x
  · intro x
    by_cases hx : x = id
    · subst hx
      rw [writesFor_append_self]
      apply chainOk_append_last _ _ (inv.histOk x)
      intro p hp
      have h2 := inv.histLast x
      rw [hp] at h2
      rcases hst with h | h <;> rw [h] at h2 <;>
        (injection h2 with h3
         subst h3
         exact ⟨by decide, by decide⟩)
    · rw [writesFor_append_ne _ _ _ _ hx]
      exact inv.histOk x
  · intro x
    rw [hlc x]
    exact inv.liveOnce x
  · intro x hpos
    rw [hlc x] at hpos
    by_cases hx : x = id
    · subst hx
      exact Or.inr (lookupA_setA_self _ _ _)
    · rw [lookupA_setA_ne _ _ hx]
      exact inv.liveStatus x hpos
  · intro h
    have h' : s.recovered = false := h
    have hwk := (inv.notRecovered h').2.2.2
    rw [hwk] at hw
    simp at hw

theorem sysInv_finish (s : SysState) (id : Nat) (ok : Bool) (inv : SysInv s)
    (hw : (id, true) ∈ s.workers) :
    SysInv { s with workers := erasePair s.workers (id, true),
                    store := setA s.store id (finishStatus ok),
                    history := s.history ++ [(id, finishStatus ok)] } := by
  have hwcount : 0 < (s.workers.map Prod.fst).count id := by
    apply List.count_pos_iff.mpr
    exact List.mem_map.mpr ⟨(id, true), hw, rfl⟩
  have hlivepos : 0 < liveCount s id := by
    unfold liveCount
    omega
  have hst := inv.liveStatus id hlivepos
  have hmem : id ∈ keysA s.store := by
    rw [mem_keysA_iff_lookupA]
    rcases hst with h | h <;> simp [h]
  have hlive1 : liveCount s id = 1 := Nat.le_antisymm (inv.liveOnce id) hlivepos
  have hrankfacts : (finishStatus ok).rank = 2 := by
    cases ok <;> rfl
  have hlc : ∀ x, liveCount
      { s with workers := erasePair s.workers (id, true),
               store := setA s.store id (finishStatus ok),
               history := s.history ++ [(id, finishStatus ok)] } x
      = liveCount s x - (if x = id then 1 else 0) := by
    intro x
    unfold liveCount
    dsimp only
    have hc := count_map_fst_erasePair s.workers (id, true) x hw
    by_cases hx : x = id
    · subst hx
      simp at hc
      simp
      omega
    · have hne : (if (id, true).1 = x then 1 else 0) = 0 := by
        simp [Ne.symm hx]
      rw [hne] at hc
      simp [hx]
      omega
  refine ⟨?_, ?_, ?_, ?_, ?_, ?_⟩
  · rw [keysA_setA_of_mem _ _ _ hmem]
    exact inv.storeNodup
  · intro x
    by_cases hx : x = id
    · subst hx
      rw [writesFor_append_self, List.getLast?_concat, lookupA_setA_self]
    · rw [writesFor_append_ne _ _ _ _ hx, lookupA_setA_ne _ _ hx]
      exact inv.histLast x
  · intro x
    by_cases hx : x = id
    · subst hx
      rw [writesFor_append_self]
      apply chainOk_append_last _ _ (inv.histOk x)
      intro p hp
      have h2 := inv.histLast x
      rw [hp] at h2
      rcases hst with h | h <;> rw [h] at h2 <;>
        (injection h2 with h3
         subst h3
         exact ⟨by rw [hrankfacts]; decide, by decide⟩)
    · rw [writesFor_append_ne _ _ _ _ hx]
      exact inv.histOk x
  · intro x
    rw [hlc x]
    have := inv.liveOnce x
    omega
  · intro x hpos
    rw [hlc x] at hpos
    by_cases hx : x = id
    · subst hx
      rw [hlive1] at hpos
      simp at hpos
    · have hne : (if x = id then 1 else 0) = 0 := by
        simp [hx]
      rw [hne] at hpos
      rw [lookupA_setA_ne _ _ hx]
      apply inv.liveStatus
      omega
  · intro h
    have h' : s.recovered = false := h
    have hwk := (inv.notRecovered h').2.2.2
    rw [hwk] at hw
    simp at hw

theorem sysInv_restart (s : SysState) (inv : SysInv s) :
    SysInv { s with queue := [], submitBuf := [], recoveryBuf := [],
                    workers := [], recovered := false } := by
  have hlc : ∀ x, liveCount
      { s with queue := [], submitBuf := [], recoveryBuf := [],
               workers := [], recovered := false } x = 0 := by
    intro x
    unfold liveCount
    dsimp only
    simp
  refine ⟨inv.storeNodup, inv.histLast, inv.histOk, ?_, ?_, ?_⟩
  · intro x
    rw [hlc x]
    omega
  · intro x hpos
    rw [hlc x] at hpos
    simp at hpos
  · intro _
    exact ⟨rfl, rfl, rfl, rfl⟩

/-- One step of a recovery-first run preserves the reachability invariant. -/
theorem sysInv_step (s : SysState) (e : Ev) (s' : SysState) (inv : SysInv s)
    (hgood : (match e with
              | Ev.submitCreate _ => s.recovered
              | _ => true) = true)
    (hstep : step s e = some s') : SysInv s' := by
  cases e with
  | submitCreate id =>
    simp only [step] at hstep
    split at hstep
    · injection hstep with h
      subst h
      exact sysInv_submitCreate s id inv (by simpa using hgood) (by assumption)
    · simp at hstep
  | submitPut id =>
    simp only [step] at hstep
    split at hstep
    · injection hstep with h
      subst h
      exact sysInv_submitPut s id inv (by assumption)
    · simp at hstep
  | recoveryScan =>
    simp only [step] at hstep
    split at hstep
    · injection hstep with h
      subst h
      exact sysInv_recoveryScan s inv (by assumption)
    · simp at hstep
  | recoveryPut =>
    simp only [step] at hstep
    split at hstep
    · simp at hstep
    · injection hstep with h
      subst h
      exact sysInv_recoveryPut s _ _ inv (by assumption)
  | recoveryFail =>
    simp only [step] at hstep
    split at hstep
    · simp at hstep
    · injection hstep with h
      subst h
      exact sysInv_recoveryFail s _ _ inv (by assumption)
  | dequeue =>
    simp only [step] at hstep
    split at hstep
    · simp at hstep
    · injection hstep with h
      subst h
      exact sysInv_dequeue s _ _ inv (by assumption)
  | markProcessing id =>
    simp only [step] at hstep
    split at hstep
    · injection hstep with h
      subst h
      exact sysInv_markProcessing s id inv (by assumption)
    · simp at hstep
  | finish id ok =>
    simp only [step] at hstep
    split at hstep
    · injection hstep with h
      subst h
      exact sysInv_finish s id ok inv (by assumption)
    · simp at hstep
  | restart =>
    simp only [step] at hstep
    injection hstep with h
    subst h
    exact sysInv_restart s inv

/-- The invariant holds along every recovery-first run. -/
theorem sysInv_runEvs (s : SysState) (evs : List Ev) (s' : SysState)
    (inv : SysInv s) (hgood : goodRun s evs = true)
    (hrun : runEvs s evs = some s') : SysInv s' := by
  induction evs generalizing s with
  | nil =>
    simp [runEvs] at hrun
    subst hrun
    exact inv
  | cons e rest ih =>
    unfold runEvs at hrun
    unfold goodRun at hgood
    cases hstep : step s e with
    | none =>
      rw [hstep] at hrun
      simp at hrun
    | some s1 =>
      rw [hstep] at hrun hgood
      simp only [Bool.and_eq_true] at hgood
      exact ih s1 (sysInv_step s e s1 inv hgood.1 hstep) hgood.2 hrun

theorem sysInv_init : SysInv initSys := by
  refine ⟨?_, ?_, ?_, ?_, ?_, ?_⟩
  · simp [initSys, keysA]
  · intro id
    simp [initSys, writesFor, lookupA]
  · intro id
    simp [initSys, writesFor]
    rfl
  · intro id
    simp [initSys, liveCount]
  · intro id hpos
    simp [initSys, liveCount] at hpos
  · intro _
    exact ⟨rfl, rfl, rfl, rfl⟩

/-- C1 counterexample: on the race trace — a submit whose store write lands
just before the startup recovery scan reads its snapshot, so the job is
queued by both the submit and the recovery loop — the durable store sees
the write sequence pending, processing, completed, processing for one job
id: the claimed monotonicity is violated and the terminal status is
overwritten by a later update_task_status call. -/
theorem status_monotonicity_violated :
    (runEvs initSys raceTrace).map (fun s => chainOk (writesFor 0 s.history))
        = some false ∧
      (runEvs initSys raceTrace).map (fun s => writesFor 0 s.history)
        = some [JStatus.pending, JStatus.processing, JStatus.completed,
                JStatus.processing] := by
  constructor
  · decide
  · decide

/-- C1 amended: along every execution in which each process run's startup
recovery scan happens before that run accepts submissions (recovery-first
runs), every job id's durable status writes are monotonic — pending,
processing, then a terminal status — and nothing is ever written after a
terminal status.  Without the recovery-first condition the race of the
counterexample makes a processing write overwrite completed. -/
theorem trace_status_monotone :
    ∀ (evs : List Ev) (s' : SysState),
      goodRun initSys evs = true → runEvs initSys evs = some s' →
      ∀ id, chainOk (writesFor id s'.history) = true :=
  fun evs s' hg hr id => (sysInv_runEvs initSys evs s' sysInv_init hg hr).histOk id

/-- C1 witness: a full normal lifecycle trace satisfies the discipline. -/
theorem trace_status_monotone_witness :
    chainOk (writesFor 0 ((runEvs initSys normalTrace).getD initSys).history)
      = true :=
  trace_status_monotone normalTrace ((runEvs initSys normalTrace).getD initSys)
    (by decide) (by decide) 0

/-- C2: after a restart followed by the startup recovery scan, a job id is
in the re-enqueued set exactly once precisely when its durably stored
status was pending or processing at the restart, never twice; and any job
that was sitting on the in-memory queue — or whose submit had written the
store but not yet queued it — at the crash is re-enqueued exactly once,
because submit writes the durable row before the queue put. -/
theorem recovery_requeues_exactly_once :
    ∀ (s t : SysState) (id : Nat), SysInv s →
      runEvs s [Ev.restart, Ev.recoveryScan] = some t →
      (t.recoveryBuf.count id = 1 ↔
        (lookupA s.store id = some JStatus.pending ∨
         lookupA s.store id = some JStatus.processing)) ∧
      t.recoveryBuf.count id ≤ 1 ∧
      (id ∈ s.queue ∨ id ∈ s.submitBuf → t.recoveryBuf.count id = 1) := by
  intro s t id inv hrun
  simp only [runEvs, step] at hrun
  simp at hrun
  subst hrun
  dsimp only
  have hnodup := pendingIds_nodup s.store inv.storeNodup
  have hcnt := count_eq_ite_of_nodup _ hnodup id
  refine ⟨?_, ?_, ?_⟩
  · rw [hcnt]
    by_cases hmem : id ∈ pendingIds s.store
    · simp [hmem]
      exact (mem_pendingIds_iff s.store inv.storeNodup id).mp hmem
    · simp [hmem]
      constructor
      · intro h
        exact hmem ((mem_pendingIds_iff s.store inv.storeNodup id).mpr (Or.inl h))
      · intro h
        exact hmem ((mem_pendingIds_iff s.store inv.storeNodup id).mpr (Or.inr h))
  · exact List.nodup_iff_count_le_one.mp hnodup id
  · intro hor
    have hpos : 0 < liveCount s id := by
      unfold liveCount
      rcases hor with h | h
      · have := List.count_pos_iff.mpr h
        omega
      · have := List.count_pos_iff.mpr h
        omega
    have hst := inv.liveStatus id hpos
    rw [hcnt]
    simp [(mem_pendingIds_iff s.store inv.storeNodup id).mpr hst]

/-- C2 witness: a run that leaves job 0 pending on the queue, then a
simulated restart and recovery scan: job 0 is re-enqueued exactly once. -/
theorem recovery_requeues_witness :
    (((runEvs ((runEvs initSys c2Trace).getD initSys)
        [Ev.restart, Ev.recoveryScan]).getD initSys).recoveryBuf).count 0 = 1 := by
  have hs : SysInv ((runEvs initSys c2Trace).getD initSys) :=
    sysInv_runEvs initSys c2Trace ((runEvs initSys c2Trace).getD initSys)
      sysInv_init (by decide) (by decide)
  have h := recovery_requeues_exactly_once ((runEvs initSys c2Trace).getD initSys)
    (((runEvs ((runEvs initSys c2Trace).getD initSys)
        [Ev.restart, Ev.recoveryScan]).getD initSys)) 0 hs (by decide)
  exact h.2.2 (Or.inl (by decide))

end Gemma
